import Mathlib

/-!
# Verification of the Sudoku engine (`src/sudoku.ts`)

A shallow embedding of the constraint-satisfaction core of the Sudoku
application: the constraint validator `isValid`, the backtracking solver
`solve`, the solution counter `countSolutions`, the full-grid generator
`generateFullGrid`, the cell remover `removeCells` and the orchestrator
`generatePuzzle`.

A grid (`number[][]` in the source, 9×9, `0` = empty) is embedded as a
function `Nat → Nat → Nat`; the in-place cell assignments of the source
become functional updates (`setCell`), and the implicit mutable state is
threaded explicitly through each recursive search function.  The unbounded
recursion of the source is embedded with an explicit fuel argument; a fuel
of 82 provably suffices for every 9×9 grid because each recursive call of
the source fills one of the at most 81 empty cells.

Randomness (lodash `shuffle`) is modelled by passing the shuffled
candidate lists / position order as explicit parameters, universally
quantified in the theorems under the contract that a shuffle returns a
permutation of its input.

The progress-log callback of the source (`LogFn`) has no effect on any
result and is omitted.
-/

namespace Sudoku

/-- A 9×9 Sudoku grid: `number[][]` in the source.  Cell `(r, c)` holds
`g r c`; `0` denotes an empty cell.  Only indices `0 ≤ r, c < 9` are ever
read or written by the embedded operations. -/
def Grid : Type := Nat → Nat → Nat

/-- The all-empty grid: `Array.from({length: 9}, () => Array(9).fill(0))`. -/
def emptyGrid : Grid := fun _ _ => 0

/-- The functional image of the in-place assignment `grid[r][c] = v`. -/
def setCell (g : Grid) (r c v : Nat) : Grid :=
  fun r' c' => if r' = r ∧ c' = c then v else g r' c'

/-- `cloneGrid(grid)` — `grid.map((row) => [...row])`, a deep copy.  On the
functional embedding a copy is the grid itself. -/
def cloneGrid (g : Grid) : Grid := fun r c => g r c

/-- Build a grid from a literal list of rows (for concrete test grids). -/
def ofRows (rows : List (List Nat)) : Grid :=
  fun r c => (rows.getD r []).getD c 0

/-- The candidate list `[1, 2, 3, 4, 5, 6, 7, 8, 9]` of the source. -/
def digitList : List Nat := [1, 2, 3, 4, 5, 6, 7, 8, 9]

/-- `isValid(grid, row, col, num)`: `num` occurs nowhere in row `row`,
nowhere in column `col`, and nowhere in the 3×3 box of `(row, col)`
(`boxRow = Math.floor(row/3)*3`, `boxCol = Math.floor(col/3)*3`). -/
def isValid (g : Grid) (row col num : Nat) : Bool :=
  ((List.range 9).all fun c => g row c != num) &&
  ((List.range 9).all fun r => g r col != num) &&
  ((List.range 3).all fun i => (List.range 3).all fun j =>
    g (row / 3 * 3 + i) (col / 3 * 3 + j) != num)

/-- Decode a row-major cell index `k` (0 ≤ k < 81) into `(row, col)`. -/
def cellIdx (k : Nat) : Nat × Nat := (k / 9, k % 9)

/-- The row-major scan `for (row …) for (col …) if (grid[row][col] !== 0)
continue` of the source: the first empty cell, if any. -/
def firstEmpty (g : Grid) : Option (Nat × Nat) :=
  ((List.range 81).find? fun k => g (k / 9) (k % 9) == 0).map cellIdx

/-- Number of empty cells among the 81 board positions. -/
def zerosCount (g : Grid) : Nat :=
  (List.range 81).countP fun k => g (k / 9) (k % 9) == 0

/-- Number of clues: `puzzle.flat().filter((v) => v !== 0).length`. -/
def clueCount (g : Grid) : Nat :=
  (List.range 81).countP fun k => g (k / 9) (k % 9) != 0

/-- The grid is completely filled (no empty cell on the 9×9 board). -/
def fullG (g : Grid) : Prop := ∀ r < 9, ∀ c < 9, g r c ≠ 0

/-- All cell values are in `{0..9}` (the data model of the spec). -/
def inRangeG (g : Grid) : Prop := ∀ r < 9, ∀ c < 9, g r c ≤ 9

/-- Two distinct positions see each other: same row, same column or same
3×3 box. -/
def sameUnit (r c r' c' : Nat) : Prop :=
  r = r' ∨ c = c' ∨ (r / 3 = r' / 3 ∧ c / 3 = c' / 3)

/-- No Sudoku conflict among the placed (nonzero) cells: two distinct
cells of a common unit never hold the same nonzero digit. -/
def goodG (g : Grid) : Prop :=
  ∀ r < 9, ∀ c < 9, ∀ r' < 9, ∀ c' < 9,
    ¬(r = r' ∧ c = c') → sameUnit r c r' c' → g r c ≠ 0 → g r c ≠ g r' c'

/-- `p` is a sub-grid of `g`: every clue of `p` appears unchanged in `g`
(`g` extends `p`). -/
def subGrid (p g : Grid) : Prop := ∀ r < 9, ∀ c < 9, p r c ≠ 0 → g r c = p r c

/-- Equality cell for cell on the 9×9 board. -/
def sameGrid (g h : Grid) : Prop := ∀ r < 9, ∀ c < 9, g r c = h r c

/-- `T` is a (valid) completion of the partial grid `p`: a completely
filled, conflict-free grid with digits in range that extends `p`. -/
def Completion (p T : Grid) : Prop := fullG T ∧ goodG T ∧ inRangeG T ∧ subGrid p T

instance (g : Grid) : Decidable (fullG g) := by unfold fullG; infer_instance

instance (g : Grid) : Decidable (inRangeG g) := by unfold inRangeG; infer_instance

instance (r c r' c' : Nat) : Decidable (sameUnit r c r' c') := by
  unfold sameUnit; infer_instance

set_option synthInstance.maxSize 2000 in
instance (g : Grid) : Decidable (goodG g) := by unfold goodG; infer_instance

instance (p g : Grid) : Decidable (subGrid p g) := by unfold subGrid; infer_instance

instance (g h : Grid) : Decidable (sameGrid g h) := by unfold sameGrid; infer_instance

instance (p T : Grid) : Decidable (Completion p T) := by unfold Completion; infer_instance

/-!
## The four backtracking searches

Each search of the source is embedded as a fuel-indexed function (`*Go`)
whose digit loop (`for num …` / `for num of candidates`) is a list
recursion (`*Try`) receiving the recursive search at one less fuel as the
function argument `rec`.  The grid state returned by a call is the state
of the mutable source grid at the corresponding `return`.
-/

/-- The digit loop of `solve`: try `num`, recurse, and on failure undo the
placement (`grid[row][col] = 0`) before trying the next digit. -/
def solveTry (rec : Grid → Bool × Grid) (r c : Nat) :
    Grid → List Nat → Bool × Grid
  | g, [] => (false, g)
  | g, num :: rest =>
    if isValid g r c num then
      match rec (setCell g r c num) with
      | (true, g') => (true, g')
      | (false, g') => solveTry rec r c (setCell g' r c 0) rest
    else solveTry rec r c g rest

/-- `solve(grid)`: find the first empty cell and try digits 1–9 in
ascending order; with no empty cell left the grid is solved. -/
def solveGo : Nat → Grid → Bool × Grid
  | 0, g => (false, g)
  | fuel + 1, g =>
    match firstEmpty g with
    | none => (true, g)
    | some (r, c) => solveTry (fun g' => solveGo fuel g') r c g digitList

/-- `solve(grid) -> boolean` together with the final state of the mutated
grid.  Fuel 82 exceeds the 81 possible empty cells, so it never runs out
(`solveGo_fuel` below). -/
def solve (g : Grid) : Bool × Grid := solveGo 82 g

/-- The digit loop of the `search()` closure of `countSolutions`; the
`Nat` component is the captured mutable `count`. -/
def countTry (rec : Grid → Nat → Bool × Grid × Nat) (r c : Nat) :
    Grid → List Nat → Nat → Bool × Grid × Nat
  | g, [], k => (false, g, k)
  | g, num :: rest, k =>
    if isValid g r c num then
      match rec (setCell g r c num) k with
      | (true, g', k') => (true, g', k')
      | (false, g', k') => countTry rec r c (setCell g' r c 0) rest k'
    else countTry rec r c g rest k

/-- The `search()` closure of `countSolutions`: on a full grid it
increments `count` and returns `count > 1` (the early-exit signal). -/
def countGo : Nat → Grid → Nat → Bool × Grid × Nat
  | 0, g, k => (false, g, k)
  | fuel + 1, g, k =>
    match firstEmpty g with
    | none => (decide (k + 1 > 1), g, k + 1)
    | some (r, c) => countTry (fun g' k' => countGo fuel g' k') r c g digitList k

/-- `countSolutions(grid) -> number`: run `search()` on `count = 0` and
return the final `count`. -/
def countSolutions (g : Grid) : Nat := (countGo 82 g 0).2.2

/-- Specification-side enumerator: the digit loop of an exhaustive search
that collects every completion instead of counting with early exit.  It
mirrors `countTry` branch for branch and is the reference the counter is
measured against. -/
def searchAllTry (rec : Grid → List Grid) (r c : Nat) (g : Grid) :
    List Nat → List Grid
  | [] => []
  | num :: rest =>
    (if isValid g r c num then rec (setCell g r c num) else []) ++
      searchAllTry rec r c g rest

/-- Specification-side enumerator of all grids the backtracking search can
reach with a fully filled board, in search order. -/
def searchAllGo : Nat → Grid → List Grid
  | 0, _ => []
  | fuel + 1, g =>
    match firstEmpty g with
    | none => [g]
    | some (r, c) => searchAllTry (fun g' => searchAllGo fuel g') r c g digitList

/-- All completions the search can reach, in search order. -/
def searchAll (g : Grid) : List Grid := searchAllGo 82 g

/-- The candidate loop of `fill` inside `generateFullGrid`; the `Nat`
component is the index into the stream of shuffles, advanced once per
`fill` invocation (`shuffle([1…9])` is called once per invocation). -/
def fillTry (rec : Grid → Nat → Bool × Grid × Nat) (row col : Nat) :
    Grid → List Nat → Nat → Bool × Grid × Nat
  | g, [], idx => (false, g, idx)
  | g, num :: rest, idx =>
    if isValid g row col num then
      match rec (setCell g row col num) idx with
      | (true, g', idx') => (true, g', idx')
      | (false, g', idx') => fillTry rec row col (setCell g' row col 0) rest idx'
    else fillTry rec row col g rest idx

/-- The cursor normalization at the top of `fill`: `if (col === 9) {
row++; col = 0; }`. -/
def nextCell (row col : Nat) : Nat × Nat :=
  if col = 9 then (row + 1, 0) else (row, col)

/-- `fill(row, col)` of `generateFullGrid`: advance to the next row when
`col === 9`, succeed when `row === 9`, otherwise try the shuffled
candidates `sh idx` at the current cell and recurse on `col + 1`. -/
def fillGo (sh : Nat → List Nat) : Nat → Nat → Nat → Grid → Nat → Bool × Grid × Nat
  | 0, _, _, g, idx => (false, g, idx)
  | fuel + 1, row, col, g, idx =>
    let rc := nextCell row col
    if rc.1 = 9 then (true, g, idx)
    else
      fillTry (fun g' idx' => fillGo sh fuel rc.1 (rc.2 + 1) g' idx')
        rc.1 rc.2 g (sh idx) (idx + 1)

/-- `generateFullGrid()`: run `fill(0, 0)` on the empty grid and return the
grid (the boolean result is ignored by the source as well). -/
def generateFullGrid (sh : Nat → List Nat) : Grid :=
  (fillGo sh 82 0 0 emptyGrid 0).2.1

/-!
## Difficulty table, cell remover and orchestrator
-/

/-- `type Difficulty = "easy" | "medium" | "hard"`. -/
inductive Difficulty
  | easy
  | medium
  | hard
deriving DecidableEq

/-- An entry `{ min, max }` of the difficulty table. -/
structure DiffRange where
  min : Nat
  max : Nat
deriving DecidableEq

/-- `DIFFICULTY_CLUES`: the clue range for each difficulty, exactly as in
the source. -/
def DIFFICULTY_CLUES : Difficulty → DiffRange
  | .easy => ⟨27, 32⟩
  | .medium => ⟨25, 27⟩
  | .hard => ⟨17, 19⟩

/-- `maxRemovals = 81 - minClues` of `removeCells`. -/
def maxRemovals (difficulty : Difficulty) : Nat :=
  81 - (DIFFICULTY_CLUES difficulty).min

/-- The list of all 81 positions built by the source's nested loops,
row-major, before shuffling. -/
def allPositions : List (Nat × Nat) :=
  ((List.range 9).map fun r => (List.range 9).map fun c => (r, c)).flatten

/-- The removal loop of `removeCells` over the (shuffled) position list:
stop at the removal budget, skip empty cells, tentatively zero the cell,
and keep the removal exactly when `countSolutions(cloneGrid(puzzle))`
is 1, otherwise restore the value. -/
def removeCellsGo (maxR : Nat) : List (Nat × Nat) → Grid → Nat → Grid × Nat
  | [], p, removed => (p, removed)
  | (r, c) :: rest, p, removed =>
    if maxR ≤ removed then (p, removed)
    else
      let value := p r c
      if value = 0 then removeCellsGo maxR rest p removed
      else
        let p1 := setCell p r c 0
        if countSolutions (cloneGrid p1) ≠ 1 then
          removeCellsGo maxR rest (setCell p1 r c value) removed
        else removeCellsGo maxR rest p1 (removed + 1)

/-- `removeCells(solvedGrid, difficulty)`: single removal pass over the
shuffled positions, starting from a clone of the solved grid.
`positionsOrder` stands for `shuffle(positions)`. -/
def removeCells (solvedGrid : Grid) (difficulty : Difficulty)
    (positionsOrder : List (Nat × Nat)) : Grid :=
  (removeCellsGo (maxRemovals difficulty) positionsOrder (cloneGrid solvedGrid) 0).1

/-- Modelled from the spec: the phase-2 cleanup of the Cell Remover,
absent from the source.  Repeatedly sweep all 81 positions (row-major)
with the same tentative-remove/count/revert-or-keep step, until a sweep
removes zero cells or the removal budget is exhausted.  Fuel 82 bounds
the sweeps: every non-final sweep removes at least one of at most 81
clues. -/
def cleanupSweeps (maxR : Nat) : Nat → Grid → Nat → Grid × Nat
  | 0, p, removed => (p, removed)
  | fuel + 1, p, removed =>
    if maxR ≤ removed then (p, removed)
    else
      let s := removeCellsGo maxR allPositions p removed
      if s.2 = removed then s
      else cleanupSweeps maxR fuel s.1 s.2

/-- Modelled from the spec: the two-phase Cell Remover (greedy pass, then
cleanup sweeps until a fixed point or budget exhaustion), to be compared
with the source's single-pass `removeCells`. -/
def removeCellsSpecTwoPhase (solvedGrid : Grid) (difficulty : Difficulty)
    (positionsOrder : List (Nat × Nat)) : Grid :=
  let s := removeCellsGo (maxRemovals difficulty) positionsOrder (cloneGrid solvedGrid) 0
  (cleanupSweeps (maxRemovals difficulty) 82 s.1 s.2).1

/-- The per-attempt randomness of one orchestrator attempt: the stream of
candidate shuffles consumed by `generateFullGrid` and the shuffled
position order consumed by `removeCells`. -/
structure GenRand where
  sh : Nat → List Nat
  ord : List (Nat × Nat)

/-- `Math.abs(a - b)` on clue counts. -/
def absDiff (a b : Nat) : Nat := (a - b) + (b - a)

/-- One attempt of `generatePuzzle`: a fresh solved grid, the carved
puzzle, and its clue count; the solved grid is cloned as in the source. -/
def attemptResult (difficulty : Difficulty) (rand : Nat → GenRand) (i : Nat) :
    Grid × Grid × Nat :=
  let solved := generateFullGrid (rand i).sh
  let puzzle := removeCells solved difficulty (rand i).ord
  (cloneGrid solved, puzzle, clueCount puzzle)

/-- The `bestResult` update of the source: replace when there is no best
yet or the new clue count is strictly closer to `minClues`. -/
def updBest (minClues : Nat) (best : Option (Grid × Grid × Nat))
    (a : Grid × Grid × Nat) : Option (Grid × Grid × Nat) :=
  match best with
  | none => some a
  | some b =>
    if absDiff a.2.2 minClues < absDiff b.2.2 minClues then some a else some b

/-- The attempt loop of `generatePuzzle` over the remaining attempt
indices, carrying `bestResult`; the empty case is the fallback
`{solved: bestResult!.solved, puzzle: bestResult!.puzzle}`. -/
def generatePuzzleGo (difficulty : Difficulty) (rand : Nat → GenRand) :
    List Nat → Option (Grid × Grid × Nat) → Grid × Grid
  | [], best =>
    ((best.getD (emptyGrid, emptyGrid, 0)).1, (best.getD (emptyGrid, emptyGrid, 0)).2.1)
  | i :: rest, best =>
    let a := attemptResult difficulty rand i
    let best' := updBest (DIFFICULTY_CLUES difficulty).min best a
    if (DIFFICULTY_CLUES difficulty).min ≤ a.2.2 ∧
        a.2.2 ≤ (DIFFICULTY_CLUES difficulty).max then (a.1, a.2.1)
    else generatePuzzleGo difficulty rand rest best'

/-- `generatePuzzle(difficulty)`: up to `maxAttempts = 50` attempts. -/
def generatePuzzle (difficulty : Difficulty) (rand : Nat → GenRand) : Grid × Grid :=
  generatePuzzleGo difficulty rand (List.range 50) none

/-- Modelled from the spec: the acceptance test "the clue count falls
within `[minClues, maxClues]`". -/
def acceptClues (difficulty : Difficulty) (clues : Nat) : Bool :=
  decide ((DIFFICULTY_CLUES difficulty).min ≤ clues ∧
    clues ≤ (DIFFICULTY_CLUES difficulty).max)

/-- The list of the 50 attempt results of one orchestrator run. -/
def attemptsList (difficulty : Difficulty) (rand : Nat → GenRand) :
    List (Grid × Grid × Nat) :=
  (List.range 50).map (attemptResult difficulty rand)

/-- Modelled from the spec: "the tracked attempt whose clue count is
closest to `minClues`" (earliest wins ties, matching the strict `<` of
the tracking rule). -/
def closestToMin (minClues : Nat) (l : List (Grid × Grid × Nat)) :
    Option (Grid × Grid × Nat) :=
  l.foldl (updBest minClues) none

/-- Modelled from the spec: return the first attempt whose clue count is
accepted, and otherwise the tracked attempt closest to `minClues`. -/
def selectSpec (difficulty : Difficulty) (rand : Nat → GenRand) :
    Option (Grid × Grid) :=
  match (attemptsList difficulty rand).find? (fun a => acceptClues difficulty a.2.2) with
  | some a => some (a.1, a.2.1)
  | none =>
    (closestToMin (DIFFICULTY_CLUES difficulty).min (attemptsList difficulty rand)).map
      fun b => (b.1, b.2.1)

/-!
## Units as value lists (for the completeness invariant)
-/

/-- The nine values of row `r`. -/
def rowCells (g : Grid) (r : Nat) : List Nat := (List.range 9).map fun c => g r c

/-- The nine values of column `c`. -/
def colCells (g : Grid) (c : Nat) : List Nat := (List.range 9).map fun r => g r c

/-- The nine values of box `b` (boxes numbered row-major, `b/3` the box
row, `b%3` the box column). -/
def boxCells (g : Grid) (b : Nat) : List Nat :=
  (List.range 9).map fun t => g (b / 3 * 3 + t / 3) (b % 3 * 3 + t % 3)

/-- Every row, column and box contains each digit 1–9 exactly once. -/
def unitsExactlyOnce (g : Grid) : Prop :=
  ∀ u < 9, ∀ d, 1 ≤ d → d ≤ 9 →
    (rowCells g u).count d = 1 ∧ (colCells g u).count d = 1 ∧
      (boxCells g u).count d = 1

instance (g : Grid) : Decidable (unitsExactlyOnce g) := by
  unfold unitsExactlyOnce; infer_instance


/-!
## Concrete grids and streams (test fixtures for the theorems)
-/

/-- A concrete valid solved grid. -/
def Wgrid : Grid := ofRows [
  [1,2,3,4,5,6,7,8,9],
  [4,5,6,7,8,9,1,2,3],
  [7,8,9,1,2,3,4,5,6],
  [2,3,1,5,6,4,8,9,7],
  [5,6,4,8,9,7,2,3,1],
  [8,9,7,2,3,1,5,6,4],
  [3,1,2,6,4,5,9,7,8],
  [6,4,5,9,7,8,3,1,2],
  [9,7,8,3,1,2,6,4,5]]

/-- A second valid solved grid: `Wgrid` with digits 1 and 2 swapped. -/
def Wgrid2 : Grid := ofRows [
  [2,1,3,4,5,6,7,8,9],
  [4,5,6,7,8,9,2,1,3],
  [7,8,9,2,1,3,4,5,6],
  [1,3,2,5,6,4,8,9,7],
  [5,6,4,8,9,7,1,3,2],
  [8,9,7,1,3,2,5,6,4],
  [3,2,1,6,4,5,9,7,8],
  [6,4,5,9,7,8,3,2,1],
  [9,7,8,3,2,1,6,4,5]]

/-- `Wgrid` with its last cell emptied: a near-full solvable puzzle. -/
def WgridHole : Grid := setCell Wgrid 8 8 0

/-- The grid with every cell 1: fully filled but invalid. -/
def allOnes : Grid := fun _ _ => 1

/-- The grid with every cell 2: fully filled but invalid. -/
def allTwos : Grid := fun _ _ => 2

/-- The grid with every cell 9: fully filled but invalid. -/
def allNines : Grid := fun _ _ => 9

/-- A conflict-free but uncompletable grid: row 0 holds 1–8 with its last
cell empty, and a 9 at (1, 8) blocks the only digit that could fill it.
Rows 2–8 are empty. -/
def gStuck : Grid := ofRows [
  [1,2,3,4,5,6,7,8,0],
  [0,0,0,0,0,0,0,0,9]]

/-- The identity "shuffle" stream: candidates in ascending order. -/
def constSh : Nat → List Nat := fun _ => digitList

/-- Deterministic orchestrator randomness: ascending candidates and the
row-major position order for every attempt. -/
def constRand : Nat → GenRand := fun _ => ⟨constSh, allPositions⟩

theorem cloneGrid_eq (g : Grid) : cloneGrid g = g := rfl

theorem setCell_same (g : Grid) (r c v : Nat) : setCell g r c v r c = v := by
  simp [setCell]

theorem setCell_ne (g : Grid) {r c r' c' : Nat} (v : Nat)
    (h : ¬(r' = r ∧ c' = c)) : setCell g r c v r' c' = g r' c' := by
  simp [setCell, h]

theorem setCell_setCell (g : Grid) (r c v w : Nat) :
    setCell (setCell g r c v) r c w = setCell g r c w := by
  funext r' c'
  by_cases h : r' = r ∧ c' = c
  · simp [setCell, h]
  · simp [setCell, h]

theorem setCell_self (g : Grid) (r c : Nat) : setCell g r c (g r c) = g := by
  funext r' c'
  by_cases h : r' = r ∧ c' = c
  · obtain ⟨h1, h2⟩ := h
    subst h1; subst h2
    simp [setCell]
  · simp [setCell, h]

theorem sameGrid_refl (g : Grid) : sameGrid g g := fun _ _ _ _ => rfl

theorem sameGrid_symm {g h : Grid} (hs : sameGrid g h) : sameGrid h g :=
  fun r hr c hc => (hs r hr c hc).symm

theorem sameGrid_trans {g h k : Grid} (h1 : sameGrid g h) (h2 : sameGrid h k) :
    sameGrid g k := fun r hr c hc => (h1 r hr c hc).trans (h2 r hr c hc)

theorem subGrid_refl (g : Grid) : subGrid g g := fun _ _ _ _ _ => rfl

theorem subGrid_trans {a b c : Grid} (h1 : subGrid a b) (h2 : subGrid b c) :
    subGrid a c := by
  intro r hr cc hc hne
  rw [h2 r hr cc hc, h1 r hr cc hc hne]
  rw [h1 r hr cc hc hne]
  exact hne

theorem mem_digitList {d : Nat} : d ∈ digitList ↔ 1 ≤ d ∧ d ≤ 9 := by
  simp [digitList]
  omega

theorem digitList_nodup : digitList.Nodup := by decide

/-- Positions with the same row-major index are equal. -/
theorem idx_inj {r c r' c' : Nat} (hc : c < 9) (hc' : c' < 9)
    (h : 9 * r + c = 9 * r' + c') : r = r' ∧ c = c' := by omega

theorem idx_div (r c : Nat) (hc : c < 9) :
    (9 * r + c) / 9 = r ∧ (9 * r + c) % 9 = c := by omega

/-- `countP` only depends on the predicate's values on the list. -/
theorem countP_ext {p q : Nat → Bool} :
    ∀ l : List Nat, (∀ a ∈ l, p a = q a) → l.countP p = l.countP q := by
  intro l
  induction l with
  | nil => intro _; rfl
  | cons a t ih =>
    intro h
    rw [List.countP_cons, List.countP_cons, h a (List.mem_cons_self _ _),
      ih fun k hk => h k (List.mem_cons_of_mem _ hk)]

/-- A `countP` over a duplicate-free list where the two predicates agree
except at one listed index where the first holds and the second fails. -/
theorem countP_split_one {p q : Nat → Bool} :
    ∀ (l : List Nat), l.Nodup → ∀ k0 ∈ l,
      (∀ k ∈ l, k ≠ k0 → p k = q k) → p k0 = true → q k0 = false →
      l.countP p = l.countP q + 1 := by
  intro l
  induction l with
  | nil => intro _ k0 hk0; simp at hk0
  | cons a t ih =>
    intro hnd k0 hk0 hagree hp hq
    have hndt : t.Nodup := (List.nodup_cons.mp hnd).2
    have hat : a ∉ t := (List.nodup_cons.mp hnd).1
    rcases List.mem_cons.mp hk0 with heq | hmem
    · subst heq
      have ht : t.countP p = t.countP q := by
        apply countP_ext
        intro k hk
        exact hagree k (List.mem_cons_of_mem _ hk) (fun h => hat (h ▸ hk))
      rw [List.countP_cons, List.countP_cons, hp, hq, ht]
      simp
    · have hne : a ≠ k0 := fun h => hat (h ▸ hmem)
      have hpa : p a = q a := hagree a (List.mem_cons_self _ _) hne
      rw [List.countP_cons, List.countP_cons, hpa,
        ih hndt k0 hmem (fun k hk hkne => hagree k (List.mem_cons_of_mem _ hk) hkne) hp hq]
      omega

theorem zerosCount_le (g : Grid) : zerosCount g ≤ 81 := by
  have h := List.countP_le_length (l := List.range 81)
    (p := fun k => g (k / 9) (k % 9) == 0)
  simpa [zerosCount] using h

theorem zerosCount_lt_fuel (g : Grid) : zerosCount g < 82 :=
  Nat.lt_succ_of_le (zerosCount_le g)

/-- Filling an empty in-range cell with a nonzero digit removes exactly
one zero. -/
theorem zerosCount_setCell (g : Grid) {r c d : Nat} (hr : r < 9) (hc : c < 9)
    (h0 : g r c = 0) (hd : d ≠ 0) :
    zerosCount g = zerosCount (setCell g r c d) + 1 := by
  unfold zerosCount
  apply countP_split_one (List.range 81) (List.nodup_range 81) (9 * r + c)
  · exact List.mem_range.mpr (by omega)
  · intro k hk hkne
    have : ¬(k / 9 = r ∧ k % 9 = c) := by
      intro ⟨h1, h2⟩
      exact hkne (by omega)
    rw [setCell_ne g _ this]
  · obtain ⟨h1, h2⟩ := idx_div r c hc
    rw [h1, h2, h0]; rfl
  · obtain ⟨h1, h2⟩ := idx_div r c hc
    rw [h1, h2, setCell_same]
    simpa using hd

/-- Zeroing a nonzero in-range cell removes exactly one clue. -/
theorem clueCount_setCell (g : Grid) {r c : Nat} (hr : r < 9) (hc : c < 9)
    (hnz : g r c ≠ 0) :
    clueCount g = clueCount (setCell g r c 0) + 1 := by
  unfold clueCount
  apply countP_split_one (List.range 81) (List.nodup_range 81) (9 * r + c)
  · exact List.mem_range.mpr (by omega)
  · intro k hk hkne
    have : ¬(k / 9 = r ∧ k % 9 = c) := by
      intro ⟨h1, h2⟩
      exact hkne (by omega)
    rw [setCell_ne g _ this]
  · obtain ⟨h1, h2⟩ := idx_div r c hc
    rw [h1, h2]
    simpa using hnz
  · obtain ⟨h1, h2⟩ := idx_div r c hc
    rw [h1, h2, setCell_same]
    rfl

theorem clueCount_of_fullG {g : Grid} (h : fullG g) : clueCount g = 81 := by
  unfold clueCount
  have : ∀ k ∈ List.range 81, (fun k => g (k / 9) (k % 9) != 0) k = true := by
    intro k hk
    have hk81 : k < 81 := List.mem_range.mp hk
    have := h (k / 9) (by omega) (k % 9) (by omega)
    simpa using this
  rw [List.countP_eq_length.mpr this, List.length_range]

theorem firstEmpty_eq_none_iff (g : Grid) : firstEmpty g = none ↔ fullG g := by
  unfold firstEmpty
  rw [Option.map_eq_none', List.find?_eq_none]
  constructor
  · intro h r hr c hc
    have := h (9 * r + c) (List.mem_range.mpr (by omega))
    obtain ⟨h1, h2⟩ := idx_div r c hc
    rw [h1, h2] at this
    simpa using this
  · intro h k hk
    have hk81 : k < 81 := List.mem_range.mp hk
    have := h (k / 9) (by omega) (k % 9) (by omega)
    simpa using this

theorem firstEmpty_some {g : Grid} {r c : Nat} (h : firstEmpty g = some (r, c)) :
    r < 9 ∧ c < 9 ∧ g r c = 0 := by
  unfold firstEmpty at h
  rw [Option.map_eq_some'] at h
  obtain ⟨k, hk, hidx⟩ := h
  have hmem := List.mem_of_find?_eq_some hk
  have hk81 : k < 81 := List.mem_range.mp hmem
  have hpred := List.find?_some hk
  have h0 : g (k / 9) (k % 9) = 0 := by simpa using hpred
  have hr : r = k / 9 := by
    have := congrArg Prod.fst hidx
    simpa [cellIdx] using this.symm
  have hc : c = k % 9 := by
    have := congrArg Prod.snd hidx
    simpa [cellIdx] using this.symm
  subst hr; subst hc
  exact ⟨by omega, by omega, h0⟩

theorem zerosCount_pos {g : Grid} {r c : Nat} (hr : r < 9) (hc : c < 9)
    (h0 : g r c = 0) : 0 < zerosCount g := by
  unfold zerosCount
  rw [List.countP_pos_iff]
  refine ⟨9 * r + c, List.mem_range.mpr (by omega), ?_⟩
  obtain ⟨h1, h2⟩ := idx_div r c hc
  rw [h1, h2, h0]
  rfl

/-!
## Restoration: a failed search hands back the grid it received

This is the image of the source's backtracking discipline: every
placement made on the way into a failed subtree is undone
(`grid[row][col] = 0`) on the way out.
-/

theorem setCell_zero {g : Grid} {r c : Nat} (h : g r c = 0) :
    setCell g r c 0 = g := by
  rw [← h]
  exact setCell_self g r c

theorem solveTry_restore {rec : Grid → Bool × Grid}
    (hrec : ∀ g g', rec g = (false, g') → g' = g) {r c : Nat} :
    ∀ (l : List Nat) (g g' : Grid), g r c = 0 →
      solveTry rec r c g l = (false, g') → g' = g := by
  intro l
  induction l with
  | nil =>
    intro g g' _ h
    simp [solveTry] at h
    exact h.symm
  | cons num rest ih =>
    intro g g' h0 h
    simp only [solveTry] at h
    by_cases hv : isValid g r c num
    · rw [if_pos hv] at h
      rcases hC : rec (setCell g r c num) with ⟨s, g1⟩
      rw [hC] at h
      cases s
      · have hg1 : g1 = setCell g r c num := hrec _ _ hC
        subst hg1
        dsimp only at h
        rw [setCell_setCell] at h
        have := ih (setCell g r c 0) g' (setCell_same g r c 0) h
        rw [this, setCell_zero h0]
      · simp at h
    · rw [if_neg hv] at h
      exact ih g g' h0 h

theorem solveGo_restore :
    ∀ (fuel : Nat) (g g' : Grid), solveGo fuel g = (false, g') → g' = g := by
  intro fuel
  induction fuel with
  | zero =>
    intro g g' h
    simp [solveGo] at h
    exact h.symm
  | succ fuel ih =>
    intro g g' h
    simp only [solveGo] at h
    rcases hE : firstEmpty g with _ | ⟨r, c⟩
    · rw [hE] at h; simp at h
    · rw [hE] at h
      exact solveTry_restore ih digitList g g'
        (firstEmpty_some hE).2.2 h

theorem countTry_restore {rec : Grid → Nat → Bool × Grid × Nat}
    (hrec : ∀ g k g' k', rec g k = (false, g', k') → g' = g) {r c : Nat} :
    ∀ (l : List Nat) (g : Grid) (k : Nat) (g' : Grid) (k' : Nat), g r c = 0 →
      countTry rec r c g l k = (false, g', k') → g' = g := by
  intro l
  induction l with
  | nil =>
    intro g k g' k' _ h
    simp [countTry] at h
    exact h.1.symm
  | cons num rest ih =>
    intro g k g' k' h0 h
    simp only [countTry] at h
    by_cases hv : isValid g r c num
    · rw [if_pos hv] at h
      rcases hC : rec (setCell g r c num) k with ⟨s, g1, k1⟩
      rw [hC] at h
      cases s
      · have hg1 : g1 = setCell g r c num := hrec _ _ _ _ hC
        subst hg1
        dsimp only at h
        rw [setCell_setCell] at h
        have := ih (setCell g r c 0) k1 g' k' (setCell_same g r c 0) h
        rw [this, setCell_zero h0]
      · simp at h
    · rw [if_neg hv] at h
      exact ih g k g' k' h0 h

theorem countGo_restore :
    ∀ (fuel : Nat) (g : Grid) (k : Nat) (g' : Grid) (k' : Nat),
      countGo fuel g k = (false, g', k') → g' = g := by
  intro fuel
  induction fuel with
  | zero =>
    intro g k g' k' h
    simp [countGo] at h
    exact h.1.symm
  | succ fuel ih =>
    intro g k g' k' h
    simp only [countGo] at h
    rcases hE : firstEmpty g with _ | ⟨r, c⟩
    · rw [hE] at h
      simp at h
      exact h.2.1.symm
    · rw [hE] at h
      exact countTry_restore ih digitList g k g' k'
        (firstEmpty_some hE).2.2 h

theorem fillTry_restore {rec : Grid → Nat → Bool × Grid × Nat}
    (hrec : ∀ g idx g' idx', rec g idx = (false, g', idx') → g' = g)
    {row col : Nat} :
    ∀ (l : List Nat) (g : Grid) (idx : Nat) (g' : Grid) (idx' : Nat),
      g row col = 0 →
      fillTry rec row col g l idx = (false, g', idx') → g' = g := by
  intro l
  induction l with
  | nil =>
    intro g idx g' idx' _ h
    simp [fillTry] at h
    exact h.1.symm
  | cons num rest ih =>
    intro g idx g' idx' h0 h
    simp only [fillTry] at h
    by_cases hv : isValid g row col num
    · rw [if_pos hv] at h
      rcases hC : rec (setCell g row col num) idx with ⟨s, g1, idx1⟩
      rw [hC] at h
      cases s
      · have hg1 : g1 = setCell g row col num := hrec _ _ _ _ hC
        subst hg1
        dsimp only at h
        rw [setCell_setCell] at h
        have := ih (setCell g row col 0) idx1 g' idx' (setCell_same g row col 0) h
        rw [this, setCell_zero h0]
      · simp at h
    · rw [if_neg hv] at h
      exact ih g idx g' idx' h0 h

/-!
## Semantics of `isValid` and invariant transfer
-/

/-- `isValid` holds exactly when the digit is absent from the row, the
column and the box (for an in-range cell). -/
theorem isValid_iff {g : Grid} {r c num : Nat} (hr : r < 9) (hc : c < 9) :
    isValid g r c num = true ↔
      (∀ c' < 9, g r c' ≠ num) ∧ (∀ r' < 9, g r' c ≠ num) ∧
      (∀ r' < 9, ∀ c' < 9, r' / 3 = r / 3 → c' / 3 = c / 3 → g r' c' ≠ num) := by
  unfold isValid
  simp only [Bool.and_eq_true, List.all_eq_true, List.mem_range, bne_iff_ne, ne_eq]
  constructor
  · rintro ⟨⟨h1, h2⟩, h3⟩
    refine ⟨fun c' hc' => h1 c' hc', fun r' hr' => h2 r' hr', ?_⟩
    intro r' hr' c' hc' hrb hcb
    have hi : r / 3 * 3 + r' % 3 = r' := by omega
    have hj : c / 3 * 3 + c' % 3 = c' := by omega
    have := h3 (r' % 3) (by omega) (c' % 3) (by omega)
    rw [hi, hj] at this
    exact this
  · rintro ⟨h1, h2, h3⟩
    refine ⟨⟨fun c' hc' => h1 c' hc', fun r' hr' => h2 r' hr'⟩, ?_⟩
    intro i hi j hj
    exact h3 (r / 3 * 3 + i) (by omega) (c / 3 * 3 + j) (by omega)
      (by omega) (by omega)

/-- Placing a digit that `isValid` accepts preserves conflict-freedom. -/
theorem goodG_setCell {g : Grid} {r c num : Nat} (hg : goodG g)
    (hr : r < 9) (hc : c < 9) (hv : isValid g r c num = true) :
    goodG (setCell g r c num) := by
  obtain ⟨hrow, hcol, hbox⟩ := (isValid_iff hr hc).mp hv
  intro a ha b hb a' ha' b' hb' hne hunit hnz
  by_cases h1 : a = r ∧ b = c
  · obtain ⟨rfl, rfl⟩ := h1
    have h2 : ¬(a' = a ∧ b' = b) := fun hh => hne ⟨hh.1.symm, hh.2.symm⟩
    rw [setCell_ne g num h2]
    rw [setCell_same] at hnz ⊢
    intro heq
    rcases hunit with hu | hu | ⟨hu1, hu2⟩
    · exact hrow b' hb' (by rw [← hu] at heq; exact heq.symm)
    · exact hcol a' ha' (by rw [← hu] at heq; exact heq.symm)
    · exact hbox a' ha' b' hb' hu1.symm hu2.symm heq.symm
  · rw [setCell_ne g num h1] at hnz ⊢
    by_cases h2 : a' = r ∧ b' = c
    · obtain ⟨rfl, rfl⟩ := h2
      rw [setCell_same]
      intro heq
      rcases hunit with hu | hu | ⟨hu1, hu2⟩
      · exact hrow b (by omega) (by rw [hu] at heq; exact heq)
      · exact hcol a (by omega) (by rw [hu] at heq; exact heq)
      · exact hbox a ha b hb hu1 hu2 heq
    · rw [setCell_ne g num h2]
      exact hg a ha b hb a' ha' b' hb' hne hunit hnz

theorem inRangeG_setCell {g : Grid} {r c num : Nat} (hg : inRangeG g)
    (hnum : num ≤ 9) : inRangeG (setCell g r c num) := by
  intro a ha b hb
  by_cases h : a = r ∧ b = c
  · obtain ⟨rfl, rfl⟩ := h
    rw [setCell_same]; exact hnum
  · rw [setCell_ne g num h]; exact hg a ha b hb

/-- Filling an empty cell extends the grid. -/
theorem subGrid_setCell_of_zero {g : Grid} {r c : Nat} (h0 : g r c = 0)
    (num : Nat) : subGrid g (setCell g r c num) := by
  intro a ha b hb hnz
  by_cases h : a = r ∧ b = c
  · obtain ⟨rfl, rfl⟩ := h
    exact absurd h0 hnz
  · exact setCell_ne g num h

/-- Zeroing a cell produces a sub-grid. -/
theorem setCell_zero_subGrid (g : Grid) (r c : Nat) :
    subGrid (setCell g r c 0) g := by
  intro a ha b hb hnz
  by_cases h : a = r ∧ b = c
  · obtain ⟨rfl, rfl⟩ := h
    rw [setCell_same] at hnz
    exact absurd rfl hnz
  · rw [setCell_ne g 0 h]

theorem subGrid_setZero_mono {p q : Grid} (h : subGrid p q) (r c : Nat) :
    subGrid (setCell p r c 0) (setCell q r c 0) := by
  intro a ha b hb hnz
  by_cases hab : a = r ∧ b = c
  · obtain ⟨rfl, rfl⟩ := hab
    rw [setCell_same] at hnz
    exact absurd rfl hnz
  · rw [setCell_ne p 0 hab] at hnz
    rw [setCell_ne q 0 hab, setCell_ne p 0 hab]
    exact h a ha b hb hnz

theorem goodG_of_subGrid {p S : Grid} (hsub : subGrid p S) (hS : goodG S) :
    goodG p := by
  intro a ha b hb a' ha' b' hb' hne hunit hnz heq
  have hz' : p a' b' ≠ 0 := by rw [← heq]; exact hnz
  have h1 : S a b = p a b := hsub a ha b hb hnz
  have h2 : S a' b' = p a' b' := hsub a' ha' b' hb' hz'
  exact hS a ha b hb a' ha' b' hb' hne hunit (by rw [h1]; exact hnz)
    (by rw [h1, h2]; exact heq)

theorem inRangeG_of_subGrid {p S : Grid} (hsub : subGrid p S) (hS : inRangeG S) :
    inRangeG p := by
  intro a ha b hb
  by_cases hz : p a b = 0
  · rw [hz]; omega
  · rw [← hsub a ha b hb hz]; exact hS a ha b hb

theorem Completion_of_subGrid {p q T : Grid} (h : subGrid p q)
    (hT : Completion q T) : Completion p T :=
  ⟨hT.1, hT.2.1, hT.2.2.1, subGrid_trans h hT.2.2.2⟩

/-- The digit a completion places at an empty in-range cell is accepted by
`isValid` on the partial grid. -/
theorem isValid_completion {g T : Grid} {r c : Nat} (hT : Completion g T)
    (hr : r < 9) (hc : c < 9) (h0 : g r c = 0) :
    isValid g r c (T r c) = true := by
  obtain ⟨hfull, hgood, hrange, hsub⟩ := hT
  have hTnz : T r c ≠ 0 := hfull r hr c hc
  rw [isValid_iff hr hc]
  have key : ∀ r' < 9, ∀ c' < 9, sameUnit r' c' r c → g r' c' ≠ T r c := by
    intro r' hr' c' hc' hunit heq
    have hgz : g r' c' ≠ 0 := by
      rw [heq]; exact hTnz
    have hne : ¬(r' = r ∧ c' = c) := by
      rintro ⟨rfl, rfl⟩
      exact hgz h0
    have hTr' : T r' c' = g r' c' := hsub r' hr' c' hc' hgz
    have := hgood r' hr' c' hc' r hr c hc hne hunit (by rw [hTr', heq]; exact hTnz)
    rw [hTr', heq] at this
    exact this rfl
  refine ⟨fun c' hc' => key r hr c' hc' (Or.inl rfl),
    fun r' hr' => key r' hr' c hc (Or.inr (Or.inl rfl)), ?_⟩
  intro r' hr' c' hc' hrb hcb
  exact key r' hr' c' hc' (Or.inr (Or.inr ⟨hrb, hcb⟩))

/-!
## The exhaustive enumerator: soundness, completeness, distinctness

`searchAllGo` enumerates exactly the valid completions (up to board
equality), each exactly once.  These three lemmas turn the solution
counter and the solver into statements about the set of completions.
-/

theorem searchAllTry_mem {rec : Grid → List Grid} {r c : Nat} {g : Grid} :
    ∀ {l : List Nat} {T : Grid}, T ∈ searchAllTry rec r c g l →
      ∃ num ∈ l, isValid g r c num = true ∧ T ∈ rec (setCell g r c num) := by
  intro l
  induction l with
  | nil => intro T h; simp [searchAllTry] at h
  | cons num rest ih =>
    intro T h
    simp only [searchAllTry] at h
    rw [List.mem_append] at h
    rcases h with h | h
    · by_cases hv : isValid g r c num
      · rw [if_pos hv] at h
        exact ⟨num, List.mem_cons_self _ _, hv, h⟩
      · rw [if_neg hv] at h; simp at h
    · obtain ⟨num', hmem, hv, hT⟩ := ih h
      exact ⟨num', List.mem_cons_of_mem _ hmem, hv, hT⟩

theorem searchAllTry_mem_of {rec : Grid → List Grid} {r c : Nat} {g : Grid} :
    ∀ {l : List Nat} {num : Nat} {T : Grid}, num ∈ l →
      isValid g r c num = true → T ∈ rec (setCell g r c num) →
      T ∈ searchAllTry rec r c g l := by
  intro l
  induction l with
  | nil => intro num T h; simp at h
  | cons num0 rest ih =>
    intro num T hmem hv hT
    simp only [searchAllTry]
    rw [List.mem_append]
    rcases List.mem_cons.mp hmem with rfl | hmem'
    · left; rw [if_pos hv]; exact hT
    · right; exact ih hmem' hv hT

theorem searchAllGo_extends :
    ∀ (fuel : Nat) (g T : Grid), T ∈ searchAllGo fuel g →
      subGrid g T ∧ fullG T := by
  intro fuel
  induction fuel with
  | zero => intro g T h; simp [searchAllGo] at h
  | succ fuel ih =>
    intro g T h
    simp only [searchAllGo] at h
    rcases hE : firstEmpty g with _ | ⟨r, c⟩
    · rw [hE] at h
      simp at h
      subst h
      exact ⟨subGrid_refl T, (firstEmpty_eq_none_iff T).mp hE⟩
    · rw [hE] at h
      obtain ⟨hr, hc, h0⟩ := firstEmpty_some hE
      obtain ⟨num, _, _, hT⟩ := searchAllTry_mem h
      obtain ⟨hsub, hfull⟩ := ih _ T hT
      exact ⟨subGrid_trans (subGrid_setCell_of_zero h0 num) hsub, hfull⟩

theorem searchAllGo_sound :
    ∀ (fuel : Nat) (g : Grid), goodG g → inRangeG g →
      ∀ T ∈ searchAllGo fuel g, Completion g T := by
  intro fuel
  induction fuel with
  | zero => intro g _ _ T h; simp [searchAllGo] at h
  | succ fuel ih =>
    intro g hgood hrange T h
    simp only [searchAllGo] at h
    rcases hE : firstEmpty g with _ | ⟨r, c⟩
    · rw [hE] at h
      simp at h
      subst h
      exact ⟨(firstEmpty_eq_none_iff _).mp hE, hgood, hrange, subGrid_refl _⟩
    · rw [hE] at h
      obtain ⟨hr, hc, h0⟩ := firstEmpty_some hE
      obtain ⟨num, hmem, hv, hT⟩ := searchAllTry_mem h
      have hnum9 : num ≤ 9 := (mem_digitList.mp hmem).2
      have hC := ih (setCell g r c num) (goodG_setCell hgood hr hc hv)
        (inRangeG_setCell hrange hnum9) T hT
      exact Completion_of_subGrid (subGrid_setCell_of_zero h0 num) hC

theorem searchAllGo_complete :
    ∀ (fuel : Nat) (g : Grid), zerosCount g < fuel →
      ∀ T, Completion g T → ∃ T' ∈ searchAllGo fuel g, sameGrid T T' := by
  intro fuel
  induction fuel with
  | zero => intro g hz; omega
  | succ fuel ih =>
    intro g hz T hT
    simp only [searchAllGo]
    rcases hE : firstEmpty g with _ | ⟨r, c⟩
    · refine ⟨g, List.mem_singleton_self g, ?_⟩
      have hfull := (firstEmpty_eq_none_iff g).mp hE
      intro a ha b hb
      exact hT.2.2.2 a ha b hb (hfull a ha b hb)
    · obtain ⟨hr, hc, h0⟩ := firstEmpty_some hE
      have hd1 : 1 ≤ T r c := by
        have := hT.1 r hr c hc
        omega
      have hd9 : T r c ≤ 9 := hT.2.2.1 r hr c hc
      have hdmem : T r c ∈ digitList := mem_digitList.mpr ⟨hd1, hd9⟩
      have hv : isValid g r c (T r c) = true := isValid_completion hT hr hc h0
      have hTC : Completion (setCell g r c (T r c)) T := by
        refine ⟨hT.1, hT.2.1, hT.2.2.1, ?_⟩
        intro a ha b hb hnz
        by_cases hab : a = r ∧ b = c
        · obtain ⟨rfl, rfl⟩ := hab
          rw [setCell_same]
        · rw [setCell_ne g (T r c) hab] at hnz ⊢
          exact hT.2.2.2 a ha b hb hnz
      have hzs : zerosCount (setCell g r c (T r c)) < fuel := by
        have := zerosCount_setCell g hr hc h0 (by omega : T r c ≠ 0)
        omega
      obtain ⟨T', hT', hsame⟩ := ih (setCell g r c (T r c)) hzs T hTC
      exact ⟨T', searchAllTry_mem_of hdmem hv hT', hsame⟩

theorem searchAllTry_pairwise {rec : Grid → List Grid}
    (hpw : ∀ g', (rec g').Pairwise (fun a b => ¬ sameGrid a b))
    (hext : ∀ g' T, T ∈ rec g' → subGrid g' T) {r c : Nat}
    (hr : r < 9) (hc : c < 9) (g : Grid) :
    ∀ (l : List Nat), l.Nodup → (∀ num ∈ l, num ≠ 0) →
      (searchAllTry rec r c g l).Pairwise (fun a b => ¬ sameGrid a b) := by
  intro l
  induction l with
  | nil => intro _ _; simp [searchAllTry]
  | cons num rest ih =>
    intro hnd hnz
    simp only [searchAllTry]
    rw [List.pairwise_append]
    have hcell : ∀ T, T ∈ (if isValid g r c num then rec (setCell g r c num) else []) →
        T r c = num := by
      intro T hTmem
      by_cases hv : isValid g r c num
      · rw [if_pos hv] at hTmem
        have := hext _ T hTmem r hr c hc
        rw [setCell_same] at this
        exact this (hnz num (List.mem_cons_self _ _))
      · rw [if_neg hv] at hTmem; simp at hTmem
    refine ⟨?_, ih (List.nodup_cons.mp hnd).2
        (fun n hn => hnz n (List.mem_cons_of_mem _ hn)), ?_⟩
    · by_cases hv : isValid g r c num
      · rw [if_pos hv]; exact hpw _
      · rw [if_neg hv]; exact List.Pairwise.nil
    · intro a hamem b hbmem hsame
      have ha : a r c = num := hcell a hamem
      obtain ⟨num', hmem', _, hb⟩ := searchAllTry_mem hbmem
      have hbval : b r c = num' := by
        have := hext _ b hb r hr c hc
        rw [setCell_same] at this
        exact this (hnz num' (List.mem_cons_of_mem _ hmem'))
      have hne : num' ≠ num := by
        intro hh
        exact (List.nodup_cons.mp hnd).1 (hh ▸ hmem')
      have := hsame r hr c hc
      rw [ha, hbval] at this
      exact hne this.symm

theorem searchAllGo_pairwise :
    ∀ (fuel : Nat) (g : Grid),
      (searchAllGo fuel g).Pairwise (fun a b => ¬ sameGrid a b) := by
  intro fuel
  induction fuel with
  | zero => intro g; simp [searchAllGo]
  | succ fuel ih =>
    intro g
    simp only [searchAllGo]
    rcases hE : firstEmpty g with _ | ⟨r, c⟩
    · exact List.pairwise_singleton _ _
    · obtain ⟨hr, hc, _⟩ := firstEmpty_some hE
      exact searchAllTry_pairwise ih
        (fun g' T h => (searchAllGo_extends fuel g' T h).1) hr hc g digitList
        digitList_nodup (by decide)

/-!
## The counter computes `min (number of completions) 2`

`countGo` mirrors `searchAllGo` branch for branch; the early exit
(`return count > 1`) caps the count at 2.
-/

theorem countTry_parallel {rec : Grid → Nat → Bool × Grid × Nat}
    {recAll : Grid → List Grid}
    (hrec : ∀ g k, k ≤ 1 →
      (rec g k).2.2 = min (k + (recAll g).length) 2 ∧
      (rec g k).1 = decide (1 < (rec g k).2.2) ∧
      ((rec g k).2.2 ≤ 1 → (rec g k).2.1 = g)) {r c : Nat} :
    ∀ (l : List Nat) (g : Grid) (k : Nat), k ≤ 1 → g r c = 0 →
      (countTry rec r c g l k).2.2 =
        min (k + (searchAllTry recAll r c g l).length) 2 ∧
      (countTry rec r c g l k).1 = decide (1 < (countTry rec r c g l k).2.2) ∧
      ((countTry rec r c g l k).2.2 ≤ 1 → (countTry rec r c g l k).2.1 = g) := by
  intro l
  induction l with
  | nil =>
    intro g k hk h0
    refine ⟨?_, ?_, fun _ => rfl⟩
    · show k = min (k + ([] : List Grid).length) 2
      simp only [List.length_nil]
      omega
    · show false = decide (1 < k)
      have : ¬ (1 < k) := by omega
      simp [this]
  | cons num rest ih =>
    intro g k hk h0
    simp only [countTry, searchAllTry]
    by_cases hv : isValid g r c num
    · simp only [if_pos hv]
      rcases hC : rec (setCell g r c num) k with ⟨s, g1, k1⟩
      obtain ⟨hk1, hs, hrest⟩ := hrec (setCell g r c num) k hk
      rw [hC] at hk1 hs hrest
      dsimp at hk1 hs hrest
      cases s with
      | true =>
        dsimp only
        have h2 : k1 = 2 := by
          have : (1 < k1) := by
            have := hs.symm
            simpa using this
          omega
        rw [List.length_append]
        refine ⟨by omega, by simp [h2], by omega⟩
      | false =>
        dsimp only
        have hk1le : k1 ≤ 1 := by
          by_contra hgt
          rw [eq_comm, decide_eq_false_iff_not] at hs
          exact hs (by omega)
        have hg1 : g1 = setCell g r c num := hrest hk1le
        subst hg1
        rw [setCell_setCell, setCell_zero h0]
        have hih := ih g k1 hk1le h0
        rw [List.length_append]
        have hmin : k1 = k + (recAll (setCell g r c num)).length := by omega
        refine ⟨?_, hih.2.1, hih.2.2⟩
        rw [hih.1]
        omega
    · simp only [if_neg hv]
      have hih := ih g k hk h0
      simpa using hih

theorem countGo_parallel :
    ∀ (fuel : Nat) (g : Grid) (k : Nat), k ≤ 1 →
      (countGo fuel g k).2.2 = min (k + (searchAllGo fuel g).length) 2 ∧
      (countGo fuel g k).1 = decide (1 < (countGo fuel g k).2.2) ∧
      ((countGo fuel g k).2.2 ≤ 1 → (countGo fuel g k).2.1 = g) := by
  intro fuel
  induction fuel with
  | zero =>
    intro g k hk
    refine ⟨?_, ?_, fun _ => rfl⟩
    · show k = min (k + ([] : List Grid).length) 2
      simp only [List.length_nil]
      omega
    · show false = decide (1 < k)
      have : ¬ (1 < k) := by omega
      simp [this]
  | succ fuel ih =>
    intro g k hk
    rcases hE : firstEmpty g with _ | ⟨r, c⟩
    · simp only [countGo, searchAllGo, hE, List.length_singleton]
      refine ⟨by omega, by simp, fun _ => trivial⟩
    · simp only [countGo, searchAllGo, hE]
      exact countTry_parallel ih digitList g k hk (firstEmpty_some hE).2.2

/-- The value returned by `countSolutions` is the number of completions
the exhaustive search enumerates, capped at 2. -/
theorem countSolutions_eq_min (g : Grid) :
    countSolutions g = min (searchAll g).length 2 := by
  have h := (countGo_parallel 82 g 0 (by omega)).1
  simpa [countSolutions, searchAll] using h

/-!
## The solver returns the first enumerated completion
-/

theorem solveTry_parallel {rec : Grid → Bool × Grid} {recAll : Grid → List Grid}
    (hrec : ∀ g, (recAll g = [] ∧ rec g = (false, g)) ∨
      (∃ T rest2, recAll g = T :: rest2 ∧ rec g = (true, T))) {r c : Nat} :
    ∀ (l : List Nat) (g : Grid), g r c = 0 →
      (searchAllTry recAll r c g l = [] ∧ solveTry rec r c g l = (false, g)) ∨
      (∃ T rest2, searchAllTry recAll r c g l = T :: rest2 ∧
        solveTry rec r c g l = (true, T)) := by
  intro l
  induction l with
  | nil =>
    intro g h0
    left
    exact ⟨rfl, rfl⟩
  | cons num rest ih =>
    intro g h0
    simp only [searchAllTry, solveTry]
    by_cases hv : isValid g r c num
    · rw [if_pos hv, if_pos hv]
      rcases hrec (setCell g r c num) with ⟨hnil, hfail⟩ | ⟨T, rest2, hcons, hok⟩
      · rw [hnil, hfail]
        dsimp only
        rw [List.nil_append, setCell_setCell, setCell_zero h0]
        exact ih g h0
      · rw [hcons, hok]
        dsimp only
        right
        exact ⟨T, rest2 ++ searchAllTry recAll r c g rest, rfl, rfl⟩
    · rw [if_neg hv, if_neg hv]
      simpa using ih g h0

theorem solveGo_parallel :
    ∀ (fuel : Nat) (g : Grid),
      (searchAllGo fuel g = [] ∧ solveGo fuel g = (false, g)) ∨
      (∃ T rest2, searchAllGo fuel g = T :: rest2 ∧ solveGo fuel g = (true, T)) := by
  intro fuel
  induction fuel with
  | zero =>
    intro g
    left
    exact ⟨rfl, rfl⟩
  | succ fuel ih =>
    intro g
    simp only [searchAllGo, solveGo]
    rcases hE : firstEmpty g with _ | ⟨r, c⟩
    · right
      exact ⟨g, [], rfl, rfl⟩
    · exact solveTry_parallel ih digitList g (firstEmpty_some hE).2.2

/-- Case split for `solve`: it fails (returning the grid untouched)
exactly when the search enumerates no completion, and otherwise returns
the first enumerated completion. -/
theorem solve_cases (g : Grid) :
    (searchAll g = [] ∧ solve g = (false, g)) ∨
    (∃ T rest2, searchAll g = T :: rest2 ∧ solve g = (true, T)) :=
  solveGo_parallel 82 g

/-!
## Corollaries: the counter and solver against the set of completions
-/

theorem two_le_length_of_two_mem {α : Type} {l : List α} {a b : α}
    (ha : a ∈ l) (hb : b ∈ l) (hne : a ≠ b) : 2 ≤ l.length := by
  match l with
  | [] => simp at ha
  | [x] =>
    simp at ha hb
    exact absurd (ha.trans hb.symm) hne
  | x :: y :: t =>
    simp only [List.length_cons]
    omega

theorem countSolutions_le_two (g : Grid) : countSolutions g ≤ 2 := by
  rw [countSolutions_eq_min]
  omega

/-- Any fully filled grid makes the counter return exactly 1 (its own
filling is the single "solution" the search reaches — even when the
filled grid breaks the Sudoku rules, since placed clues are never
re-validated). -/
theorem countSolutions_of_fullG {g : Grid} (h : fullG g) :
    countSolutions g = 1 := by
  have hE : firstEmpty g = none := (firstEmpty_eq_none_iff g).mpr h
  rw [countSolutions_eq_min]
  have : searchAll g = [g] := by
    unfold searchAll
    simp only [searchAllGo, hE]
  rw [this]
  rfl

theorem searchAll_nil_iff {g : Grid} (hgood : goodG g) (hrange : inRangeG g) :
    searchAll g = [] ↔ ∀ T, ¬ Completion g T := by
  constructor
  · intro hnil T hT
    obtain ⟨T', hT', _⟩ := searchAllGo_complete 82 g (zerosCount_lt_fuel g) T hT
    rw [searchAll] at hnil
    rw [hnil] at hT'
    simp at hT'
  · intro hno
    rcases hs : searchAll g with _ | ⟨T, t⟩
    · rfl
    · have : T ∈ searchAll g := by rw [hs]; exact List.mem_cons_self _ _
      exact absurd (searchAllGo_sound 82 g hgood hrange T this) (hno T)

theorem two_le_searchAll_iff {g : Grid} (hgood : goodG g) (hrange : inRangeG g) :
    2 ≤ (searchAll g).length ↔
      ∃ T₁ T₂, Completion g T₁ ∧ Completion g T₂ ∧ ¬ sameGrid T₁ T₂ := by
  constructor
  · intro hlen
    rcases hs : searchAll g with _ | ⟨a, t⟩
    · rw [hs] at hlen; simp at hlen
    · rcases t with _ | ⟨b, t2⟩
      · rw [hs] at hlen; simp at hlen
      · have hmema : a ∈ searchAll g := by rw [hs]; exact List.mem_cons_self _ _
        have hmemb : b ∈ searchAll g := by
          rw [hs]; exact List.mem_cons_of_mem _ (List.mem_cons_self _ _)
        have hpw := searchAllGo_pairwise 82 g
        rw [searchAll] at hs
        rw [hs] at hpw
        have hnab : ¬ sameGrid a b :=
          (List.pairwise_cons.mp hpw).1 b (List.mem_cons_self _ _)
        exact ⟨a, b, searchAllGo_sound 82 g hgood hrange a hmema,
          searchAllGo_sound 82 g hgood hrange b hmemb, hnab⟩
  · rintro ⟨T₁, T₂, h₁, h₂, hne⟩
    obtain ⟨T₁', hm₁, hs₁⟩ := searchAllGo_complete 82 g (zerosCount_lt_fuel g) T₁ h₁
    obtain ⟨T₂', hm₂, hs₂⟩ := searchAllGo_complete 82 g (zerosCount_lt_fuel g) T₂ h₂
    have hne' : T₁' ≠ T₂' := by
      intro hEq
      subst hEq
      exact hne (sameGrid_trans hs₁ (sameGrid_symm hs₂))
    exact two_le_length_of_two_mem hm₁ hm₂ hne'

/-- With a unique solution (counter value 1), any two completions agree
cell for cell. -/
theorem completions_unique {g : Grid} (hgood : goodG g) (hrange : inRangeG g)
    (hcount : countSolutions g = 1) {T₁ T₂ : Grid}
    (h₁ : Completion g T₁) (h₂ : Completion g T₂) : sameGrid T₁ T₂ := by
  by_contra hne
  have h2 : 2 ≤ (searchAll g).length :=
    (two_le_searchAll_iff hgood hrange).mpr ⟨T₁, T₂, h₁, h₂, hne⟩
  rw [countSolutions_eq_min] at hcount
  omega

/-- A successful solve returns a valid completion of its (conflict-free,
in-range) input. -/
theorem solve_sound {g : Grid} (hgood : goodG g) (hrange : inRangeG g)
    (htrue : (solve g).1 = true) : Completion g (solve g).2 := by
  rcases solve_cases g with ⟨_, hfail⟩ | ⟨T, rest2, hcons, hok⟩
  · rw [hfail] at htrue; simp at htrue
  · rw [hok]
    have : T ∈ searchAll g := by rw [hcons]; exact List.mem_cons_self _ _
    exact searchAllGo_sound 82 g hgood hrange T this

/-- If a completion exists, `solve` succeeds. -/
theorem solve_complete {g T : Grid} (hT : Completion g T) :
    (solve g).1 = true := by
  rcases solve_cases g with ⟨hnil, _⟩ | ⟨T', rest2, _, hok⟩
  · obtain ⟨T', hT', _⟩ := searchAllGo_complete 82 g (zerosCount_lt_fuel g) T hT
    rw [searchAll] at hnil
    rw [hnil] at hT'
    simp at hT'
  · rw [hok]

/-!
## Pigeonhole: a full conflict-free in-range grid has perfect units
-/

theorem count_one_of_nine {f : Nat → Nat}
    (hinj : ∀ i < 9, ∀ j < 9, i ≠ j → f i ≠ f j)
    (hval : ∀ i < 9, 1 ≤ f i ∧ f i ≤ 9) :
    ∀ d, 1 ≤ d → d ≤ 9 → ((List.range 9).map f).count d = 1 := by
  intro d hd1 hd9
  have hnd : ((List.range 9).map f).Nodup := by
    apply List.Nodup.map_on _ (List.nodup_range 9)
    intro x hx y hy hf
    by_contra hne
    exact hinj x (List.mem_range.mp hx) y (List.mem_range.mp hy) hne hf
  have hsub : (List.range 9).map f ⊆ digitList := by
    intro v hv
    obtain ⟨i, hi, rfl⟩ := List.mem_map.mp hv
    exact mem_digitList.mpr (hval i (List.mem_range.mp hi))
  have hperm : ((List.range 9).map f).Perm digitList := by
    apply List.Subperm.perm_of_length_le (List.subperm_of_subset hnd hsub)
    simp [digitList]
  rw [hperm.count_eq]
  interval_cases d <;> decide

/-- A full, conflict-free grid with in-range digits has every row, column
and box containing each of 1–9 exactly once. -/
theorem unitsExactlyOnce_of {g : Grid} (hfull : fullG g) (hgood : goodG g)
    (hrange : inRangeG g) : unitsExactlyOnce g := by
  intro u hu d hd1 hd9
  refine ⟨?_, ?_, ?_⟩
  · apply count_one_of_nine ?_ ?_ d hd1 hd9
    · intro i hi j hj hne heq
      exact hgood u hu i hi u hu j hj (fun hh => hne hh.2) (Or.inl rfl)
        (hfull u hu i hi) heq
    · intro i hi
      have h1 := hfull u hu i hi
      have h2 := hrange u hu i hi
      omega
  · apply count_one_of_nine ?_ ?_ d hd1 hd9
    · intro i hi j hj hne heq
      exact hgood i hi u hu j hj u hu (fun hh => hne hh.1)
        (Or.inr (Or.inl rfl)) (hfull i hi u hu) heq
    · intro i hi
      have h1 := hfull i hi u hu
      have h2 := hrange i hi u hu
      omega
  · apply count_one_of_nine ?_ ?_ d hd1 hd9
    · intro i hi j hj hne heq
      have hri : u / 3 * 3 + i / 3 < 9 := by omega
      have hci : u % 3 * 3 + i % 3 < 9 := by omega
      have hrj : u / 3 * 3 + j / 3 < 9 := by omega
      have hcj : u % 3 * 3 + j % 3 < 9 := by omega
      refine hgood _ hri _ hci _ hrj _ hcj ?_ ?_ (hfull _ hri _ hci) heq
      · intro ⟨hh1, hh2⟩
        exact hne (by omega)
      · exact Or.inr (Or.inr ⟨by omega, by omega⟩)
    · intro i hi
      have hri : u / 3 * 3 + i / 3 < 9 := by omega
      have hci : u % 3 * 3 + i % 3 < 9 := by omega
      have h1 := hfull _ hri _ hci
      have h2 := hrange _ hri _ hci
      omega

/-!
## `generateFullGrid` produces a complete valid grid

The cell-by-cell `fill` of the source visits positions in row-major
order; the invariants carried through the induction are "every cell
before the cursor is filled" and "every cell at or after the cursor is
empty".
-/

theorem nextCell_eq (row col : Nat) (h : col ≤ 9) :
    9 * (nextCell row col).1 + (nextCell row col).2 = 9 * row + col ∧
      (nextCell row col).2 ≤ 8 := by
  by_cases h9 : col = 9 <;> simp [nextCell, h9] <;> omega

/-- Loop restoration for `fillTry`, assuming restoration of the recursive
call on the grids the loop actually passes to it. -/
theorem fillTry_restoreOn {rec : Grid → Nat → Bool × Grid × Nat}
    {row col : Nat} {g : Grid}
    (hrec : ∀ num idx g' idx',
      rec (setCell g row col num) idx = (false, g', idx') →
        g' = setCell g row col num)
    (h0 : g row col = 0) :
    ∀ (l : List Nat) (idx : Nat) (g' : Grid) (idx' : Nat),
      fillTry rec row col g l idx = (false, g', idx') → g' = g := by
  intro l
  induction l with
  | nil =>
    intro idx g' idx' h
    simp [fillTry] at h
    exact h.1.symm
  | cons num rest ih =>
    intro idx g' idx' h
    simp only [fillTry] at h
    by_cases hv : isValid g row col num
    · rw [if_pos hv] at h
      rcases hC : rec (setCell g row col num) idx with ⟨s, g1, idx1⟩
      rw [hC] at h
      cases s
      · have hg1 : g1 = setCell g row col num := hrec num idx g1 idx1 hC
        subst hg1
        dsimp only at h
        rw [setCell_setCell, setCell_zero h0] at h
        exact ih idx1 g' idx' h
      · simp at h
    · rw [if_neg hv] at h
      exact ih idx g' idx' h

/-- A failed `fill` restores the grid, for cursor states whose suffix of
the board is empty (the states the source reaches). -/
theorem fillGo_restore (sh : Nat → List Nat) :
    ∀ (fuel row col : Nat) (g : Grid) (idx : Nat) (g' : Grid) (idx' : Nat),
      col ≤ 9 → 9 * row + col ≤ 81 →
      (∀ r c, r < 9 → c < 9 → 9 * row + col ≤ 9 * r + c → g r c = 0) →
      fillGo sh fuel row col g idx = (false, g', idx') → g' = g := by
  intro fuel
  induction fuel with
  | zero =>
    intro row col g idx g' idx' _ _ _ h
    simp [fillGo] at h
    exact h.1.symm
  | succ fuel ih =>
    intro row col g idx g' idx' hcol hpos hsuf h
    obtain ⟨hposEq, hcol8⟩ := nextCell_eq row col hcol
    rcases hrc : nextCell row col with ⟨row', col'⟩
    rw [hrc] at hposEq hcol8
    dsimp only at hposEq hcol8
    simp only [fillGo, hrc] at h
    by_cases hr9 : row' = 9
    · rw [if_pos hr9] at h
      simp at h
    · rw [if_neg hr9] at h
      have hrow8 : row' ≤ 8 := by omega
      have hpos80 : 9 * row' + col' ≤ 80 := by omega
      have h0 : g row' col' = 0 := hsuf row' col' (by omega) (by omega) (by omega)
      refine fillTry_restoreOn ?_ h0 (sh idx) (idx + 1) g' idx' h
      intro num idx0 g0 idx0' hfe
      refine ih row' (col' + 1) (setCell g row' col' num) idx0 g0 idx0'
        (by omega) (by omega) ?_ hfe
      intro r c hr hc hge
      have hne : ¬(r = row' ∧ c = col') := by
        rintro ⟨rfl, rfl⟩
        omega
      rw [setCell_ne g num hne]
      exact hsuf r c hr hc (by omega)

/-- A successful `fill` from a consistent state yields a full,
conflict-free, in-range grid. -/
theorem fillGo_sound (sh : Nat → List Nat)
    (hsh : ∀ n, ∀ num ∈ sh n, 1 ≤ num ∧ num ≤ 9) :
    ∀ (fuel row col : Nat) (g : Grid) (idx : Nat),
      col ≤ 9 → 9 * row + col ≤ 81 →
      (∀ r c, r < 9 → c < 9 → 9 * r + c < 9 * row + col → g r c ≠ 0) →
      (∀ r c, r < 9 → c < 9 → 9 * row + col ≤ 9 * r + c → g r c = 0) →
      goodG g → inRangeG g →
      ∀ g' idx', fillGo sh fuel row col g idx = (true, g', idx') →
        fullG g' ∧ goodG g' ∧ inRangeG g' := by
  intro fuel
  induction fuel with
  | zero =>
    intro row col g idx _ _ _ _ _ _ g' idx' h
    simp [fillGo] at h
  | succ fuel ih =>
    intro row col g idx hcol hpos hpre hsuf hgood hrange g' idx' h
    obtain ⟨hposEq, hcol8⟩ := nextCell_eq row col hcol
    rcases hrc : nextCell row col with ⟨row', col'⟩
    rw [hrc] at hposEq hcol8
    dsimp only at hposEq hcol8
    simp only [fillGo, hrc] at h
    by_cases hr9 : row' = 9
    · rw [if_pos hr9] at h
      simp at h
      obtain ⟨hg, _⟩ := h
      subst hg
      refine ⟨?_, hgood, hrange⟩
      intro r hr c hc
      apply hpre r c hr hc
      omega
    · rw [if_neg hr9] at h
      have hrow8 : row' ≤ 8 := by omega
      have hcol9 : col' ≤ 8 := hcol8
      have hpos80 : 9 * row' + col' ≤ 80 := by omega
      have h0 : g row' col' = 0 := hsuf row' col' (by omega) (by omega) (by omega)
      have hcand := hsh idx
      -- loop induction over the candidate list, with the grid fixed
      have loop : ∀ (l : List Nat), (∀ num ∈ l, 1 ≤ num ∧ num ≤ 9) →
          ∀ (idx0 : Nat) (g' idx' : _),
          fillTry (fun g0 i0 => fillGo sh fuel row' (col' + 1) g0 i0)
              row' col' g l idx0 = (true, g', idx') →
            fullG g' ∧ goodG g' ∧ inRangeG g' := by
        intro l
        induction l with
        | nil =>
          intro _ idx0 g' idx' hh
          simp [fillTry] at hh
        | cons num rest ihl =>
          intro hlb idx0 g' idx' hh
          have hnum := hlb num (List.mem_cons_self _ _)
          simp only [fillTry] at hh
          by_cases hv : isValid g row' col' num
          · rw [if_pos hv] at hh
            rcases hC : fillGo sh fuel row' (col' + 1) (setCell g row' col' num) idx0
              with ⟨s, g1, idx1⟩
            rw [hC] at hh
            cases s
            · -- failed: restore and continue
              have hg1 : g1 = setCell g row' col' num := by
                refine fillGo_restore sh fuel row' (col' + 1)
                  (setCell g row' col' num) idx0 g1 idx1 (by omega) (by omega) ?_ hC
                intro r c hr hc hge
                have hne : ¬(r = row' ∧ c = col') := by
                  rintro ⟨rfl, rfl⟩
                  omega
                rw [setCell_ne g num hne]
                exact hsuf r c hr hc (by omega)
              subst hg1
              dsimp only at hh
              rw [setCell_setCell, setCell_zero h0] at hh
              exact ihl (fun n hn => hlb n (List.mem_cons_of_mem _ hn)) idx1 g' idx' hh
            · -- success: the recursive call's grid is the final grid
              simp only at hh
              simp at hh
              obtain ⟨hg1, hidx1⟩ := hh
              rw [← hg1]
              refine ih row' (col' + 1) (setCell g row' col' num) idx0
                (by omega) (by omega) ?_ ?_
                (goodG_setCell hgood (by omega) (by omega) hv)
                (inRangeG_setCell hrange (by omega)) g1 idx1 hC
              · intro r c hr hc hlt
                by_cases hrc2 : r = row' ∧ c = col'
                · obtain ⟨rfl, rfl⟩ := hrc2
                  rw [setCell_same]
                  omega
                · rw [setCell_ne g num hrc2]
                  by_cases hidx : 9 * r + c < 9 * row' + col'
                  · exact hpre r c hr hc (by omega)
                  · exfalso
                    have : 9 * r + c = 9 * row' + col' := by omega
                    obtain ⟨rfl, rfl⟩ := idx_inj hc (by omega : col' < 9) this
                    exact hrc2 ⟨rfl, rfl⟩
              · intro r c hr hc hge
                have hne : ¬(r = row' ∧ c = col') := by
                  rintro ⟨rfl, rfl⟩
                  omega
                rw [setCell_ne g num hne]
                exact hsuf r c hr hc (by omega)
          · rw [if_neg hv] at hh
            exact ihl (fun n hn => hlb n (List.mem_cons_of_mem _ hn)) idx0 g' idx' hh
      exact loop (sh idx) hcand (idx + 1) g' idx' h

/-- If the current state extends to a valid completion, `fill`
succeeds. -/
theorem fillGo_complete (sh : Nat → List Nat)
    (hsh : ∀ n, (sh n).Perm digitList) :
    ∀ (fuel row col : Nat) (g : Grid) (idx : Nat),
      col ≤ 9 → 9 * row + col ≤ 81 → 81 - (9 * row + col) < fuel →
      (∀ r c, r < 9 → c < 9 → 9 * row + col ≤ 9 * r + c → g r c = 0) →
      (∃ T, Completion g T) →
      (fillGo sh fuel row col g idx).1 = true := by
  intro fuel
  induction fuel with
  | zero =>
    intro row col g idx hcol hpos hfuel
    omega
  | succ fuel ih =>
    intro row col g idx hcol hpos hfuel hsuf hT
    obtain ⟨T, hTc⟩ := hT
    obtain ⟨hposEq, hcol8⟩ := nextCell_eq row col hcol
    rcases hrc : nextCell row col with ⟨row', col'⟩
    rw [hrc] at hposEq hcol8
    dsimp only at hposEq hcol8
    simp only [fillGo, hrc]
    by_cases hr9 : row' = 9
    · rw [if_pos hr9]
    · rw [if_neg hr9]
      have hrow8 : row' ≤ 8 := by omega
      have hcol9 : col' ≤ 8 := hcol8
      have hpos80 : 9 * row' + col' ≤ 80 := by omega
      have hr' : row' < 9 := by omega
      have hc' : col' < 9 := by omega
      have h0 : g row' col' = 0 := hsuf row' col' hr' hc' (by omega)
      have hd1 : 1 ≤ T row' col' := by
        have := hTc.1 row' hr' col' hc'
        omega
      have hd9 : T row' col' ≤ 9 := hTc.2.2.1 row' hr' col' hc'
      have hdmem : T row' col' ∈ sh idx :=
        (hsh idx).mem_iff.mpr (mem_digitList.mpr ⟨hd1, hd9⟩)
      have hdvalid : isValid g row' col' (T row' col') = true :=
        isValid_completion hTc hr' hc' h0
      have key : ∀ (gsub : Grid) (idx0 : Nat), gsub = setCell g row' col' (T row' col') →
          (fillGo sh fuel row' (col' + 1) gsub idx0).1 = true := by
        intro gsub idx0 hg
        subst hg
        refine ih row' (col' + 1) _ idx0 (by omega) (by omega) (by omega) ?_ ⟨T, ?_⟩
        · intro r c hr hc hge
          have hne : ¬(r = row' ∧ c = col') := by
            rintro ⟨rfl, rfl⟩
            omega
          rw [setCell_ne g _ hne]
          exact hsuf r c hr hc (by omega)
        · refine ⟨hTc.1, hTc.2.1, hTc.2.2.1, ?_⟩
          intro a ha b hb hnz
          by_cases hab : a = row' ∧ b = col'
          · obtain ⟨rfl, rfl⟩ := hab
            rw [setCell_same]
          · rw [setCell_ne g _ hab] at hnz ⊢
            exact hTc.2.2.2 a ha b hb hnz
      have loop : ∀ (l : List Nat), T row' col' ∈ l →
          ∀ (idx0 : Nat),
          (fillTry (fun g0 i0 => fillGo sh fuel row' (col' + 1) g0 i0)
            row' col' g l idx0).1 = true := by
        intro l
        induction l with
        | nil => intro hmem; simp at hmem
        | cons num rest ihl =>
          intro hmem idx0
          simp only [fillTry]
          by_cases hv : isValid g row' col' num
          · rw [if_pos hv]
            rcases hC : fillGo sh fuel row' (col' + 1) (setCell g row' col' num) idx0
              with ⟨s, g1, idx1⟩
            cases s
            · -- this candidate failed, so it is not the completion's digit
              have hnd : num ≠ T row' col' := by
                intro hEq
                have := key (setCell g row' col' num) idx0 (by rw [hEq])
                rw [hC] at this
                simp at this
              have hg1 : g1 = setCell g row' col' num := by
                refine fillGo_restore sh fuel row' (col' + 1)
                  (setCell g row' col' num) idx0 g1 idx1 (by omega) (by omega) ?_ hC
                intro r c hr hc hge
                have hne : ¬(r = row' ∧ c = col') := by
                  rintro ⟨rfl, rfl⟩
                  omega
                rw [setCell_ne g num hne]
                exact hsuf r c hr hc (by omega)
              subst hg1
              dsimp only
              rw [setCell_setCell, setCell_zero h0]
              have hmem' : T row' col' ∈ rest := by
                rcases List.mem_cons.mp hmem with hEq | hmem'
                · exact absurd hEq.symm hnd
                · exact hmem'
              exact ihl hmem' idx1
            · dsimp only
          · rw [if_neg hv]
            have hnd : num ≠ T row' col' := by
              intro hEq
              rw [hEq] at hv
              exact hv hdvalid
            have hmem' : T row' col' ∈ rest := by
              rcases List.mem_cons.mp hmem with hEq | hmem'
              · exact absurd hEq.symm hnd
              · exact hmem'
            exact ihl hmem' idx0
      exact loop (sh idx) hdmem (idx + 1)

/-- With shuffles that are permutations of 1–9, `generateFullGrid`
returns a full, conflict-free, in-range grid. -/
theorem generateFullGrid_spec (sh : Nat → List Nat)
    (hsh : ∀ n, (sh n).Perm digitList) :
    fullG (generateFullGrid sh) ∧ goodG (generateFullGrid sh) ∧
      inRangeG (generateFullGrid sh) := by
  have hW : Completion emptyGrid Wgrid := by decide
  have hcomp : (fillGo sh 82 0 0 emptyGrid 0).1 = true :=
    fillGo_complete sh hsh 82 0 0 emptyGrid 0 (by omega) (by omega) (by omega)
      (fun _ _ _ _ _ => rfl) ⟨Wgrid, hW⟩
  have hbound : ∀ n, ∀ num ∈ sh n, 1 ≤ num ∧ num ≤ 9 := by
    intro n num hmem
    exact mem_digitList.mp ((hsh n).mem_iff.mp hmem)
  rcases hres : fillGo sh 82 0 0 emptyGrid 0 with ⟨s, g', idx'⟩
  rw [hres] at hcomp
  dsimp only at hcomp
  subst hcomp
  have hsound := fillGo_sound sh hbound 82 0 0 emptyGrid 0 (by omega) (by omega)
    (fun r c _ _ h => by omega) (fun _ _ _ _ _ => rfl)
    (by intro a _ b _ a' _ b' _ _ _ hnz; exact absurd rfl hnz)
    (by intro a _ b _; exact Nat.zero_le 9) g' idx' hres
  unfold generateFullGrid
  rw [hres]
  exact hsound

/-!
## The cell remover

The single removal pass preserves `countSolutions = 1` (checked before
every commit), only ever zeroes cells, respects the removal budget, and —
because zeroing cells can only enlarge the set of completions — leaves a
puzzle in which every clue it kept is still necessary.
-/

theorem countSolutions_clone (g : Grid) :
    countSolutions (cloneGrid g) = countSolutions g := rfl

theorem removeCellsGo_count :
    ∀ (ord : List (Nat × Nat)) (maxR : Nat) (p : Grid) (removed : Nat),
      countSolutions p = 1 →
      countSolutions (removeCellsGo maxR ord p removed).1 = 1 := by
  intro ord
  induction ord with
  | nil => intro _ p _ h; exact h
  | cons rc rest ih =>
    rcases rc with ⟨r, c⟩
    intro maxR p removed h
    simp only [removeCellsGo]
    by_cases hb : maxR ≤ removed
    · rw [if_pos hb]; exact h
    · rw [if_neg hb]
      by_cases hz : p r c = 0
      · rw [if_pos hz]; exact ih maxR p removed h
      · rw [if_neg hz]
        by_cases hcs : countSolutions (cloneGrid (setCell p r c 0)) ≠ 1
        · rw [if_pos hcs, setCell_setCell, setCell_self]
          exact ih maxR p removed h
        · rw [if_neg hcs]
          push_neg at hcs
          rw [countSolutions_clone] at hcs
          exact ih maxR _ _ hcs

theorem removeCellsGo_subGrid :
    ∀ (ord : List (Nat × Nat)) (maxR : Nat) (p : Grid) (removed : Nat),
      subGrid (removeCellsGo maxR ord p removed).1 p := by
  intro ord
  induction ord with
  | nil => intro _ p _; exact subGrid_refl p
  | cons rc rest ih =>
    rcases rc with ⟨r, c⟩
    intro maxR p removed
    simp only [removeCellsGo]
    by_cases hb : maxR ≤ removed
    · rw [if_pos hb]; exact subGrid_refl p
    · rw [if_neg hb]
      by_cases hz : p r c = 0
      · rw [if_pos hz]; exact ih maxR p removed
      · rw [if_neg hz]
        by_cases hcs : countSolutions (cloneGrid (setCell p r c 0)) ≠ 1
        · rw [if_pos hcs, setCell_setCell, setCell_self]
          exact ih maxR p removed
        · rw [if_neg hcs]
          exact subGrid_trans (ih maxR _ _) (setCell_zero_subGrid p r c)

theorem removeCellsGo_budget :
    ∀ (ord : List (Nat × Nat)) (maxR : Nat) (p : Grid) (removed : Nat),
      removed ≤ maxR → (removeCellsGo maxR ord p removed).2 ≤ maxR := by
  intro ord
  induction ord with
  | nil => intro _ _ removed h; exact h
  | cons rc rest ih =>
    rcases rc with ⟨r, c⟩
    intro maxR p removed h
    simp only [removeCellsGo]
    by_cases hb : maxR ≤ removed
    · rw [if_pos hb]; exact h
    · rw [if_neg hb]
      by_cases hz : p r c = 0
      · rw [if_pos hz]; exact ih maxR p removed h
      · rw [if_neg hz]
        by_cases hcs : countSolutions (cloneGrid (setCell p r c 0)) ≠ 1
        · rw [if_pos hcs, setCell_setCell, setCell_self]
          exact ih maxR p removed h
        · rw [if_neg hcs]
          exact ih maxR _ (removed + 1) (by omega)

theorem removeCellsGo_clues :
    ∀ (ord : List (Nat × Nat)) (maxR : Nat) (p : Grid) (removed : Nat),
      (∀ q ∈ ord, q.1 < 9 ∧ q.2 < 9) →
      clueCount (removeCellsGo maxR ord p removed).1 +
          (removeCellsGo maxR ord p removed).2 = clueCount p + removed := by
  intro ord
  induction ord with
  | nil => intro _ p removed _; rfl
  | cons rc rest ih =>
    rcases rc with ⟨r, c⟩
    intro maxR p removed hord
    have hrc : r < 9 ∧ c < 9 := hord (r, c) (List.mem_cons_self _ _)
    have hord' : ∀ q ∈ rest, q.1 < 9 ∧ q.2 < 9 :=
      fun q hq => hord q (List.mem_cons_of_mem _ hq)
    simp only [removeCellsGo]
    by_cases hb : maxR ≤ removed
    · rw [if_pos hb]
    · rw [if_neg hb]
      by_cases hz : p r c = 0
      · rw [if_pos hz]; exact ih maxR p removed hord'
      · rw [if_neg hz]
        by_cases hcs : countSolutions (cloneGrid (setCell p r c 0)) ≠ 1
        · rw [if_pos hcs, setCell_setCell, setCell_self]
          exact ih maxR p removed hord'
        · rw [if_neg hcs]
          have hstep := clueCount_setCell p hrc.1 hrc.2 hz
          have := ih maxR (setCell p r c 0) (removed + 1) hord'
          omega

/-- The anti-monotonicity core: non-uniqueness survives further clue
removal.  If zeroing produced a grid with a completion but not exactly
one, any sub-grid of it (more cells zeroed) still has ≠ 1. -/
theorem countSolutions_ne_one_mono {p q : Grid}
    (hgoodp : goodG p) (hrangep : inRangeG p)
    (hgoodq : goodG q) (hrangeq : inRangeG q)
    (hsub : subGrid q p) (hex : ∃ T, Completion p T)
    (hne : countSolutions p ≠ 1) : countSolutions q ≠ 1 := by
  obtain ⟨T, hT⟩ := hex
  have h1 : 1 ≤ (searchAll p).length := by
    obtain ⟨T', hT', _⟩ := searchAllGo_complete 82 p (zerosCount_lt_fuel p) T hT
    exact List.length_pos.mpr (List.ne_nil_of_mem hT')
  rw [countSolutions_eq_min] at hne
  have h2 : 2 ≤ (searchAll p).length := by omega
  obtain ⟨T₁, T₂, hc1, hc2, hne12⟩ := (two_le_searchAll_iff hgoodp hrangep).mp h2
  have h2q : 2 ≤ (searchAll q).length :=
    (two_le_searchAll_iff hgoodq hrangeq).mpr
      ⟨T₁, T₂, Completion_of_subGrid hsub hc1, Completion_of_subGrid hsub hc2, hne12⟩
  rw [countSolutions_eq_min]
  omega

/-- No clue the removal pass kept is removable from the final puzzle
(provided the budget never bound): a kept clue was tested against an
intermediate state, and non-uniqueness is preserved by the later
removals. -/
theorem removeCellsGo_irreducible {S : Grid} (hfull : fullG S)
    (hgood : goodG S) (hrange : inRangeG S) :
    ∀ (ord : List (Nat × Nat)) (maxR : Nat) (p : Grid) (removed : Nat),
      subGrid p S →
      (removeCellsGo maxR ord p removed).2 < maxR →
      ∀ r c, r < 9 → c < 9 → (r, c) ∈ ord →
        (removeCellsGo maxR ord p removed).1 r c ≠ 0 →
        countSolutions (setCell (removeCellsGo maxR ord p removed).1 r c 0) ≠ 1 := by
  intro ord
  induction ord with
  | nil =>
    intro maxR p removed _ _ r c _ _ hmem
    simp at hmem
  | cons rc rest ih =>
    rcases rc with ⟨r0, c0⟩
    intro maxR p removed hsub hrm r c hr hc hmem hnz
    simp only [removeCellsGo] at hrm hnz ⊢
    by_cases hb : maxR ≤ removed
    · rw [if_pos hb] at hrm
      dsimp at hrm
      omega
    · rw [if_neg hb] at hrm hnz ⊢
      by_cases hz : p r0 c0 = 0
      · rw [if_pos hz] at hrm hnz ⊢
        rcases List.mem_cons.mp hmem with hEq | hmem'
        · rw [Prod.mk.injEq] at hEq
          obtain ⟨rfl, rfl⟩ := hEq
          have hsubres := removeCellsGo_subGrid rest maxR p removed
          exfalso
          apply hnz
          by_contra hres
          have := hsubres r hr c hc hres
          rw [this] at hz
          exact hres hz
        · exact ih maxR p removed hsub hrm r c hr hc hmem' hnz
      · rw [if_neg hz] at hrm hnz ⊢
        by_cases hcs : countSolutions (cloneGrid (setCell p r0 c0 0)) ≠ 1
        · rw [if_pos hcs, setCell_setCell, setCell_self] at hrm hnz ⊢
          rcases List.mem_cons.mp hmem with hEq | hmem'
          · rw [Prod.mk.injEq] at hEq
            obtain ⟨rfl, rfl⟩ := hEq
            rw [countSolutions_clone] at hcs
            have hsubres := removeCellsGo_subGrid rest maxR p removed
            have hsubp1 : subGrid (setCell p r c 0) S :=
              subGrid_trans (setCell_zero_subGrid p r c) hsub
            have hsubq : subGrid (setCell (removeCellsGo maxR rest p removed).1 r c 0)
                (setCell p r c 0) := subGrid_setZero_mono hsubres r c
            have hsubqS : subGrid (setCell (removeCellsGo maxR rest p removed).1 r c 0) S :=
              subGrid_trans hsubq hsubp1
            refine countSolutions_ne_one_mono
              (goodG_of_subGrid hsubp1 hgood) (inRangeG_of_subGrid hsubp1 hrange)
              (goodG_of_subGrid hsubqS hgood) (inRangeG_of_subGrid hsubqS hrange)
              hsubq ⟨S, hfull, hgood, hrange, hsubp1⟩ hcs
          · exact ih maxR p removed hsub hrm r c hr hc hmem' hnz
        · rw [if_neg hcs] at hrm hnz ⊢
          have hsubp1 : subGrid (setCell p r0 c0 0) S :=
            subGrid_trans (setCell_zero_subGrid p r0 c0) hsub
          rcases List.mem_cons.mp hmem with hEq | hmem'
          · rw [Prod.mk.injEq] at hEq
            obtain ⟨rfl, rfl⟩ := hEq
            have hsubres := removeCellsGo_subGrid rest maxR (setCell p r c 0) (removed + 1)
            exfalso
            apply hnz
            by_contra hres
            have := hsubres r hr c hc hres
            rw [setCell_same] at this
            exact hres this.symm
          · exact ih maxR (setCell p r0 c0 0) (removed + 1) hsubp1 hrm r c hr hc hmem' hnz

/-- A sweep over an irreducible puzzle removes nothing and leaves the
puzzle unchanged. -/
theorem removeCellsGo_noop {p : Grid} {maxR removed : Nat} (hrm : removed < maxR)
    (hirr : ∀ r c, r < 9 → c < 9 → p r c ≠ 0 →
      countSolutions (setCell p r c 0) ≠ 1) :
    ∀ (l : List (Nat × Nat)), (∀ q ∈ l, q.1 < 9 ∧ q.2 < 9) →
      removeCellsGo maxR l p removed = (p, removed) := by
  intro l
  induction l with
  | nil => intro _; rfl
  | cons rc rest ih =>
    rcases rc with ⟨r, c⟩
    intro hl
    have hrc : r < 9 ∧ c < 9 := hl (r, c) (List.mem_cons_self _ _)
    have hl' : ∀ q ∈ rest, q.1 < 9 ∧ q.2 < 9 :=
      fun q hq => hl q (List.mem_cons_of_mem _ hq)
    simp only [removeCellsGo]
    rw [if_neg (by omega : ¬ maxR ≤ removed)]
    by_cases hz : p r c = 0
    · rw [if_pos hz]; exact ih hl'
    · rw [if_neg hz]
      have hcs : countSolutions (cloneGrid (setCell p r c 0)) ≠ 1 := by
        rw [countSolutions_clone]
        exact hirr r c hrc.1 hrc.2 hz
      rw [if_pos hcs, setCell_setCell, setCell_self]
      exact ih hl'

set_option maxRecDepth 40000 in
theorem allPositions_bounds : ∀ q ∈ allPositions, q.1 < 9 ∧ q.2 < 9 := by decide

theorem mem_allPositions {r c : Nat} (hr : r < 9) (hc : c < 9) :
    (r, c) ∈ allPositions := by
  unfold allPositions
  rw [List.mem_flatten]
  refine ⟨(List.range 9).map fun c' => (r, c'), ?_, ?_⟩
  · exact List.mem_map_of_mem _ (List.mem_range.mpr hr)
  · exact List.mem_map_of_mem _ (List.mem_range.mpr hc)

theorem cleanupSweeps_succ (maxR fuel : Nat) (p : Grid) (removed : Nat) :
    cleanupSweeps maxR (fuel + 1) p removed =
      if maxR ≤ removed then (p, removed)
      else
        let s := removeCellsGo maxR allPositions p removed
        if s.2 = removed then s
        else cleanupSweeps maxR fuel s.1 s.2 := rfl

/-- The two-phase remover of the spec computes exactly the single-pass
remover of the source: cleanup sweeps never remove anything. -/
theorem removeCells_twoPhase_eq {S : Grid} (hfull : fullG S) (hgood : goodG S)
    (hrange : inRangeG S) (difficulty : Difficulty) (ord : List (Nat × Nat))
    (hord : ∀ r c, r < 9 → c < 9 → (r, c) ∈ ord) :
    removeCellsSpecTwoPhase S difficulty ord = removeCells S difficulty ord := by
  unfold removeCellsSpecTwoPhase removeCells
  rcases hs : removeCellsGo (maxRemovals difficulty) ord (cloneGrid S) 0
    with ⟨p1, r1⟩
  dsimp only
  rw [show (82 : Nat) = 81 + 1 from rfl, cleanupSweeps_succ]
  by_cases hb : maxRemovals difficulty ≤ r1
  · rw [if_pos hb]
  · rw [if_neg hb]
    dsimp only
    have hirr : ∀ r c, r < 9 → c < 9 → p1 r c ≠ 0 →
        countSolutions (setCell p1 r c 0) ≠ 1 := by
      intro r c hr hc hnz
      have := removeCellsGo_irreducible hfull hgood hrange ord
        (maxRemovals difficulty) (cloneGrid S) 0
        (by rw [cloneGrid_eq]; exact subGrid_refl S)
        (by rw [hs]; omega) r c hr hc (hord r c hr hc)
      rw [hs] at this
      exact this hnz
    have hsweep := removeCellsGo_noop (by omega : r1 < maxRemovals difficulty)
      hirr allPositions allPositions_bounds
    rw [hsweep]
    dsimp only
    rw [if_pos rfl]

/-!
## The orchestrator
-/

theorem updBest_isSome (m : Nat) (best : Option (Grid × Grid × Nat))
    (a : Grid × Grid × Nat) : (updBest m best a).isSome := by
  cases best with
  | none => rfl
  | some b =>
    simp only [updBest]
    split <;> rfl

theorem updBest_cases (m : Nat) (best : Option (Grid × Grid × Nat))
    (a : Grid × Grid × Nat) :
    updBest m best a = some a ∨ updBest m best a = best := by
  cases best with
  | none => left; rfl
  | some b =>
    simp only [updBest]
    split
    · left; rfl
    · right; rfl

theorem foldl_updBest_mem (m : Nat) :
    ∀ (l : List (Grid × Grid × Nat)) (acc : Option (Grid × Grid × Nat)),
      l.foldl (updBest m) acc = acc ∨
        ∃ a ∈ l, l.foldl (updBest m) acc = some a := by
  intro l
  induction l with
  | nil => intro acc; left; rfl
  | cons a t ih =>
    intro acc
    rw [List.foldl_cons]
    rcases ih (updBest m acc a) with h | ⟨b, hb, h⟩
    · rcases updBest_cases m acc a with h2 | h2
      · right
        exact ⟨a, List.mem_cons_self _ _, by rw [h, h2]⟩
      · left
        rw [h, h2]
    · right
      exact ⟨b, List.mem_cons_of_mem _ hb, h⟩

/-- The attempt loop, against the specification selection: return the
first accepted attempt, else the tracked attempt closest to `minClues`
folded from the carried best. -/
theorem generatePuzzleGo_spec (difficulty : Difficulty) (rand : Nat → GenRand) :
    ∀ (idxs : List Nat) (best : Option (Grid × Grid × Nat)),
      (idxs = [] → best.isSome) →
      some (generatePuzzleGo difficulty rand idxs best) =
        match (idxs.map (attemptResult difficulty rand)).find?
            (fun a => acceptClues difficulty a.2.2) with
        | some a => some (a.1, a.2.1)
        | none =>
          ((idxs.map (attemptResult difficulty rand)).foldl
              (updBest (DIFFICULTY_CLUES difficulty).min) best).map
            fun b => (b.1, b.2.1) := by
  intro idxs
  induction idxs with
  | nil =>
    intro best hb
    rcases hbb : best with _ | b
    · rw [hbb] at hb; simp at hb
    · simp only [generatePuzzleGo, List.map_nil, List.find?_nil, List.foldl_nil, hbb,
        Option.getD_some, Option.map_some']
  | cons i rest ih =>
    intro best _
    simp only [generatePuzzleGo, List.map_cons, List.find?_cons, List.foldl_cons]
    by_cases hacc : (DIFFICULTY_CLUES difficulty).min ≤ (attemptResult difficulty rand i).2.2 ∧
        (attemptResult difficulty rand i).2.2 ≤ (DIFFICULTY_CLUES difficulty).max
    · rw [if_pos hacc]
      have : acceptClues difficulty (attemptResult difficulty rand i).2.2 = true := by
        unfold acceptClues
        exact decide_eq_true hacc
      rw [this]
    · rw [if_neg hacc]
      have : acceptClues difficulty (attemptResult difficulty rand i).2.2 = false := by
        unfold acceptClues
        simpa using hacc
      rw [this]
      exact ih _ (fun _ => updBest_isSome _ best _)

/-- `generatePuzzle` computes the specification selection — in particular
the fallback (`bestResult!`) is never null. -/
theorem generatePuzzle_eq_selectSpec (difficulty : Difficulty) (rand : Nat → GenRand) :
    some (generatePuzzle difficulty rand) = selectSpec difficulty rand := by
  have h := generatePuzzleGo_spec difficulty rand (List.range 50) none
    (by intro hh; simp at hh)
  rw [generatePuzzle, selectSpec, attemptsList, closestToMin]
  exact h

/-- The orchestrator's result is one of its 50 attempts. -/
theorem generatePuzzle_mem (difficulty : Difficulty) (rand : Nat → GenRand) :
    ∃ i < 50, generatePuzzle difficulty rand =
      ((attemptResult difficulty rand i).1, (attemptResult difficulty rand i).2.1) := by
  have h := generatePuzzle_eq_selectSpec difficulty rand
  rw [selectSpec] at h
  rcases hf : (attemptsList difficulty rand).find?
      (fun a => acceptClues difficulty a.2.2) with _ | a
  · rw [hf] at h
    rcases foldl_updBest_mem (DIFFICULTY_CLUES difficulty).min
        (attemptsList difficulty rand) none with h2 | ⟨a, ha, h2⟩
    · rw [closestToMin] at h
      rw [h2] at h
      simp at h
    · rw [closestToMin] at h
      rw [h2] at h
      simp only [Option.map_some'] at h
      obtain ⟨i, hi, hia⟩ := List.mem_map.mp (by rw [attemptsList] at ha; exact ha)
      refine ⟨i, List.mem_range.mp hi, ?_⟩
      rw [hia]
      exact Option.some.inj h
  · rw [hf] at h
    have ha := List.mem_of_find?_eq_some hf
    obtain ⟨i, hi, hia⟩ := List.mem_map.mp (by rw [attemptsList] at ha; exact ha)
    refine ⟨i, List.mem_range.mp hi, ?_⟩
    rw [hia]
    exact Option.some.inj h

/-- The end-to-end pipeline invariants: the returned solved grid is full,
conflict-free and in range; the puzzle is a sub-grid of it; and the
puzzle has `countSolutions = 1`. -/
theorem generatePuzzle_spec (difficulty : Difficulty) (rand : Nat → GenRand)
    (hrand : ∀ i, ∀ n, ((rand i).sh n).Perm digitList) :
    fullG (generatePuzzle difficulty rand).1 ∧
    goodG (generatePuzzle difficulty rand).1 ∧
    inRangeG (generatePuzzle difficulty rand).1 ∧
    subGrid (generatePuzzle difficulty rand).2 (generatePuzzle difficulty rand).1 ∧
    countSolutions (generatePuzzle difficulty rand).2 = 1 := by
  obtain ⟨i, _, hres⟩ := generatePuzzle_mem difficulty rand
  rw [hres]
  rw [attemptResult]
  dsimp only
  rw [cloneGrid_eq]
  obtain ⟨hfull, hgood, hrange⟩ := generateFullGrid_spec (rand i).sh (hrand i)
  rw [removeCells, cloneGrid_eq]
  refine ⟨hfull, hgood, hrange, ?_, ?_⟩
  · exact removeCellsGo_subGrid _ _ _ _
  · exact removeCellsGo_count _ _ _ _ (countSolutions_of_fullG hfull)

/-!
## Auxiliary facts for the claim theorems
-/

theorem gStuck_no_completion : ∀ T, ¬ Completion gStuck T := by
  intro T hT
  obtain ⟨hfull, hgood, hrange, hsub⟩ := hT
  have h08a : 1 ≤ T 0 8 := by
    have := hfull 0 (by omega) 8 (by omega)
    omega
  have h08b : T 0 8 ≤ 9 := hrange 0 (by omega) 8 (by omega)
  have key : ∀ c, c < 8 → T 0 c = c + 1 := by
    intro c hc
    interval_cases c <;>
      exact (hsub 0 (by omega) _ (by omega) (by decide)).trans (by decide)
  have hne : ∀ c, c < 8 → T 0 8 ≠ T 0 c := by
    intro c hc
    exact hgood 0 (by omega) 8 (by omega) 0 (by omega) c (by omega)
      (by intro hh; omega) (Or.inl rfl) (by omega)
  have hv : ∀ c, c < 8 → T 0 8 ≠ c + 1 := by
    intro c hc
    have h1 := hne c hc
    rwa [key c hc] at h1
  have h18 : T 1 8 = 9 :=
    (hsub 1 (by omega) 8 (by omega) (by decide)).trans (by decide)
  have hne9 : T 0 8 ≠ T 1 8 :=
    hgood 0 (by omega) 8 (by omega) 1 (by omega) 8 (by omega)
      (by intro hh; omega) (Or.inr (Or.inl rfl)) (by omega)
  have e1 := hv 0 (by omega)
  have e2 := hv 1 (by omega)
  have e3 := hv 2 (by omega)
  have e4 := hv 3 (by omega)
  have e5 := hv 4 (by omega)
  have e6 := hv 5 (by omega)
  have e7 := hv 6 (by omega)
  have e8 := hv 7 (by omega)
  have e9 : T 0 8 ≠ 9 := by
    rw [h18] at hne9
    exact hne9
  omega

/-!
## The claims
-/

/-- C1: For every difficulty, the puzzle grid returned by `generatePuzzle`
has exactly one completion: `countSolutions` on a clone of the returned
puzzle yields exactly 1.  Uniqueness holds after every commit of the
remover, because a removal is committed only after the count-1 check. -/
theorem C1_unique_solution (difficulty : Difficulty) (rand : Nat → GenRand)
    (hrand : ∀ i, ∀ n, ((rand i).sh n).Perm digitList) :
    countSolutions (cloneGrid (generatePuzzle difficulty rand).2) = 1 := by
  rw [cloneGrid_eq]
  exact (generatePuzzle_spec difficulty rand hrand).2.2.2.2

theorem C1_unique_solution_witness :
    (∀ i : Nat, ∀ n : Nat, ((constRand i).sh n).Perm digitList) ∧
    countSolutions (cloneGrid (generatePuzzle Difficulty.easy constRand).2) = 1 :=
  ⟨fun _ _ => List.Perm.refl _,
    C1_unique_solution Difficulty.easy constRand (fun _ _ => List.Perm.refl _)⟩

/-- C2: Solving a clone of the returned puzzle succeeds and reproduces,
cell for cell, the accompanying solved grid. -/
theorem C2_fidelity (difficulty : Difficulty) (rand : Nat → GenRand)
    (hrand : ∀ i, ∀ n, ((rand i).sh n).Perm digitList) :
    (solve (cloneGrid (generatePuzzle difficulty rand).2)).1 = true ∧
    sameGrid (solve (cloneGrid (generatePuzzle difficulty rand).2)).2
      (generatePuzzle difficulty rand).1 := by
  obtain ⟨hfull, hgood, hrange, hsub, hcount⟩ :=
    generatePuzzle_spec difficulty rand hrand
  rw [cloneGrid_eq]
  have hSC : Completion (generatePuzzle difficulty rand).2
      (generatePuzzle difficulty rand).1 := ⟨hfull, hgood, hrange, hsub⟩
  have htrue := solve_complete hSC
  have hgoodP := goodG_of_subGrid hsub hgood
  have hrangeP := inRangeG_of_subGrid hsub hrange
  have hsolC := solve_sound hgoodP hrangeP htrue
  exact ⟨htrue, completions_unique hgoodP hrangeP hcount hsolC hSC⟩

theorem C2_fidelity_witness :
    (∀ i : Nat, ∀ n : Nat, ((constRand i).sh n).Perm digitList) ∧
    ((solve (cloneGrid (generatePuzzle Difficulty.hard constRand).2)).1 = true ∧
      sameGrid (solve (cloneGrid (generatePuzzle Difficulty.hard constRand).2)).2
        (generatePuzzle Difficulty.hard constRand).1) :=
  ⟨fun _ _ => List.Perm.refl _,
    C2_fidelity Difficulty.hard constRand (fun _ _ => List.Perm.refl _)⟩

/-- C3: The cell remover is extensionally the spec's two-phase procedure
(the cleanup sweeps against the current state reach a fixed point at
once), and for every puzzle returned without exhausting the removal
budget, tentatively zeroing any single remaining clue yields a counter
result ≠ 1: the puzzle is irreducible. -/
theorem C3_cleanup_irreducible (difficulty : Difficulty) {S : Grid}
    (hfull : fullG S) (hgood : goodG S) (hrange : inRangeG S)
    (ord : List (Nat × Nat)) (hord : ord.Perm allPositions) :
    removeCellsSpecTwoPhase S difficulty ord = removeCells S difficulty ord ∧
    ((removeCellsGo (maxRemovals difficulty) ord (cloneGrid S) 0).2 <
        maxRemovals difficulty →
      ∀ r c, r < 9 → c < 9 →
        removeCells S difficulty ord r c ≠ 0 →
        countSolutions (setCell (removeCells S difficulty ord) r c 0) ≠ 1) := by
  have hmem : ∀ r c, r < 9 → c < 9 → (r, c) ∈ ord :=
    fun r c hr hc => hord.mem_iff.mpr (mem_allPositions hr hc)
  constructor
  · exact removeCells_twoPhase_eq hfull hgood hrange difficulty ord hmem
  · intro hrm r c hr hc
    rw [removeCells]
    exact removeCellsGo_irreducible hfull hgood hrange ord
      (maxRemovals difficulty) (cloneGrid S) 0
      (by rw [cloneGrid_eq]; exact subGrid_refl S) hrm r c hr hc (hmem r c hr hc)

theorem C3_cleanup_irreducible_witness :
    fullG Wgrid ∧ goodG Wgrid ∧ inRangeG Wgrid ∧ allPositions.Perm allPositions ∧
    (removeCellsSpecTwoPhase Wgrid Difficulty.easy allPositions =
        removeCells Wgrid Difficulty.easy allPositions ∧
      ((removeCellsGo (maxRemovals Difficulty.easy) allPositions (cloneGrid Wgrid) 0).2 <
          maxRemovals Difficulty.easy →
        ∀ r c, r < 9 → c < 9 →
          removeCells Wgrid Difficulty.easy allPositions r c ≠ 0 →
          countSolutions
            (setCell (removeCells Wgrid Difficulty.easy allPositions) r c 0) ≠ 1)) :=
  ⟨by decide, by decide, by decide, List.Perm.refl _,
    C3_cleanup_irreducible Difficulty.easy (by decide) (by decide) (by decide)
      allPositions (List.Perm.refl _)⟩

/-- C4 counterexample: `solve` on the all-ones grid returns `true`
without touching it, yet the resulting grid's units are not permutations
of 1–9 — the claim fails for grids whose pre-existing clues conflict,
because the solver never re-validates filled cells. -/
theorem C4_counterexample :
    (solve allOnes).1 = true ∧ ¬ unitsExactlyOnce (solve allOnes).2 := by
  constructor
  · decide
  · decide

/-- C4 (amended): every grid returned by `generateFullGrid` (under the
shuffle contract), and every grid left in place by a successful `solve`
call on a conflict-free input with digits in 0–9, has every row, column
and 3×3 box containing each digit 1–9 exactly once. -/
theorem C4_complete_valid (sh : Nat → List Nat) (g : Grid)
    (hsh : ∀ n, (sh n).Perm digitList)
    (hgood : goodG g) (hrange : inRangeG g) :
    unitsExactlyOnce (generateFullGrid sh) ∧
    ((solve g).1 = true → unitsExactlyOnce (solve g).2) := by
  constructor
  · obtain ⟨hf, hg, hr⟩ := generateFullGrid_spec sh hsh
    exact unitsExactlyOnce_of hf hg hr
  · intro htrue
    obtain ⟨hf, hg, hr, _⟩ := solve_sound hgood hrange htrue
    exact unitsExactlyOnce_of hf hg hr

theorem C4_complete_valid_witness :
    (∀ n : Nat, (constSh n).Perm digitList) ∧ goodG WgridHole ∧ inRangeG WgridHole ∧
    unitsExactlyOnce (generateFullGrid constSh) ∧
    unitsExactlyOnce (solve WgridHole).2 :=
  ⟨fun _ => List.Perm.refl _, by decide, by decide,
    (C4_complete_valid constSh WgridHole (fun _ => List.Perm.refl _)
      (by decide) (by decide)).1,
    (C4_complete_valid constSh WgridHole (fun _ => List.Perm.refl _)
      (by decide) (by decide)).2 (by decide)⟩

/-- C5 counterexample: the all-twos grid has no valid completion (its
true number of completions is 0), yet `countSolutions` returns 1: a
fully filled grid is counted as a solution without validating its
clues. -/
theorem C5_counterexample :
    (∀ T, ¬ Completion allTwos T) ∧ countSolutions allTwos = 1 := by
  constructor
  · intro T hT
    have h00 : T 0 0 = 2 := hT.2.2.2 0 (by omega) 0 (by omega) (by decide)
    have h01 : T 0 1 = 2 := hT.2.2.2 0 (by omega) 1 (by omega) (by decide)
    have := hT.2.1 0 (by omega) 0 (by omega) 0 (by omega) 1 (by omega)
      (by intro hh; omega) (Or.inl rfl) (by omega)
    rw [h00, h01] at this
    exact this rfl
  · decide

/-- C5 (amended): for every input grid whose nonzero cells are pairwise
conflict-free and whose values lie in 0–9, `countSolutions` equals the
true number of completions when that number is 0 or 1, and is at least 2
whenever more than one completion exists. -/
theorem C5_count_exact (g : Grid) (hgood : goodG g) (hrange : inRangeG g) :
    ((∀ T, ¬ Completion g T) → countSolutions g = 0) ∧
    ((∃ T, Completion g T ∧ ∀ T', Completion g T' → sameGrid T' T) →
      countSolutions g = 1) ∧
    ((∃ T₁ T₂, Completion g T₁ ∧ Completion g T₂ ∧ ¬ sameGrid T₁ T₂) →
      2 ≤ countSolutions g) := by
  refine ⟨?_, ?_, ?_⟩
  · intro hno
    rw [countSolutions_eq_min, (searchAll_nil_iff hgood hrange).mpr hno]
    rfl
  · rintro ⟨T, hT, huniq⟩
    rw [countSolutions_eq_min]
    have h1 : 1 ≤ (searchAll g).length := by
      obtain ⟨T', hT', _⟩ := searchAllGo_complete 82 g (zerosCount_lt_fuel g) T hT
      exact List.length_pos.mpr (List.ne_nil_of_mem hT')
    have h2 : ¬ 2 ≤ (searchAll g).length := by
      intro h2
      obtain ⟨T₁, T₂, hc1, hc2, hne⟩ := (two_le_searchAll_iff hgood hrange).mp h2
      exact hne (sameGrid_trans (huniq T₁ hc1) (sameGrid_symm (huniq T₂ hc2)))
    omega
  · rintro ⟨T₁, T₂, hc1, hc2, hne⟩
    rw [countSolutions_eq_min]
    have := (two_le_searchAll_iff hgood hrange).mpr ⟨T₁, T₂, hc1, hc2, hne⟩
    omega

theorem C5_count_exact_witness :
    goodG emptyGrid ∧ inRangeG emptyGrid ∧ 2 ≤ countSolutions emptyGrid :=
  ⟨by decide, by decide,
    (C5_count_exact emptyGrid (by decide) (by decide)).2.2
      ⟨Wgrid, Wgrid2, by decide, by decide, by decide⟩⟩

/-- C6 counterexample: the all-nines grid has no valid completion, yet
`solve` returns `true` instead of the claimed `false`: an inconsistent
but fully filled grid is accepted as solved. -/
theorem C6_counterexample :
    (∀ T, ¬ Completion allNines T) ∧ (solve allNines).1 = true := by
  constructor
  · intro T hT
    have h00 : T 0 0 = 9 := hT.2.2.2 0 (by omega) 0 (by omega) (by decide)
    have h01 : T 0 1 = 9 := hT.2.2.2 0 (by omega) 1 (by omega) (by decide)
    have := hT.2.1 0 (by omega) 0 (by omega) 0 (by omega) 1 (by omega)
      (by intro hh; omega) (Or.inl rfl) (by omega)
    rw [h00, h01] at this
    exact this rfl
  · decide

/-- C6 (amended): for every conflict-free, in-range grid with no valid
completion, `solve` returns `false` and leaves the grid exactly equal to
its state at call time — every tentative placement is undone. -/
theorem C6_no_solution (g : Grid) (hgood : goodG g) (hrange : inRangeG g)
    (hno : ∀ T, ¬ Completion g T) : solve g = (false, g) := by
  rcases solve_cases g with ⟨_, hfail⟩ | ⟨T, rest2, hcons, _⟩
  · exact hfail
  · exfalso
    have : T ∈ searchAll g := by rw [hcons]; exact List.mem_cons_self _ _
    exact hno T (searchAllGo_sound 82 g hgood hrange T this)

theorem C6_no_solution_witness :
    goodG gStuck ∧ inRangeG gStuck ∧ solve gStuck = (false, gStuck) :=
  ⟨by decide, by decide,
    C6_no_solution gStuck (by decide) (by decide) gStuck_no_completion⟩

/-- C7: `generatePuzzle` runs at most 50 attempts, returns the first
attempt whose clue count lies within the difficulty's range immediately,
and otherwise returns the tracked attempt whose clue count is closest to
`minClues`; the fallback is never null (the selection always produces a
result). -/
theorem C7_orchestrator (difficulty : Difficulty) (rand : Nat → GenRand) :
    some (generatePuzzle difficulty rand) = selectSpec difficulty rand ∧
    (attemptsList difficulty rand).length = 50 := by
  refine ⟨generatePuzzle_eq_selectSpec difficulty rand, ?_⟩
  rw [attemptsList, List.length_map, List.length_range]

/-- C8: the number of cells the remover zeroes never exceeds
`81 − minClues(difficulty)`, and the returned puzzle keeps at least
`minClues(difficulty)` nonzero cells. -/
theorem C8_budget (difficulty : Difficulty) {S : Grid} (hfull : fullG S)
    (ord : List (Nat × Nat)) (hord : ∀ q ∈ ord, q.1 < 9 ∧ q.2 < 9) :
    (removeCellsGo (maxRemovals difficulty) ord (cloneGrid S) 0).2 ≤
        81 - (DIFFICULTY_CLUES difficulty).min ∧
    (DIFFICULTY_CLUES difficulty).min ≤ clueCount (removeCells S difficulty ord) := by
  have hb := removeCellsGo_budget ord (maxRemovals difficulty) (cloneGrid S) 0 (by omega)
  have hc := removeCellsGo_clues ord (maxRemovals difficulty) (cloneGrid S) 0 hord
  have h81 : clueCount (cloneGrid S) = 81 := by
    rw [cloneGrid_eq]
    exact clueCount_of_fullG hfull
  have hmin : (DIFFICULTY_CLUES difficulty).min ≤ 81 := by
    cases difficulty <;> decide
  have hmax : maxRemovals difficulty = 81 - (DIFFICULTY_CLUES difficulty).min := rfl
  constructor
  · rw [← hmax]
    exact hb
  · rw [removeCells]
    omega

theorem C8_budget_witness :
    fullG Wgrid ∧ (∀ q ∈ allPositions, q.1 < 9 ∧ q.2 < 9) ∧
    ((removeCellsGo (maxRemovals Difficulty.hard) allPositions (cloneGrid Wgrid) 0).2 ≤
        81 - (DIFFICULTY_CLUES Difficulty.hard).min ∧
      (DIFFICULTY_CLUES Difficulty.hard).min ≤
        clueCount (removeCells Wgrid Difficulty.hard allPositions)) :=
  ⟨by decide, allPositions_bounds,
    C8_budget Difficulty.hard (by decide) allPositions allPositions_bounds⟩

/-- C9 counterexample: the difficulty table does not map easy to
[35, 38] — the source table reads easy [27, 32]. -/
theorem C9_counterexample :
    DIFFICULTY_CLUES Difficulty.easy ≠ ⟨35, 38⟩ := by decide

/-- C9 (amended): the difficulty configuration is an enumerated table
with exactly the three tiers easy [27,32], medium [25,27] and
hard [17,19]; no master or extreme tier exists. -/
theorem C9_table :
    DIFFICULTY_CLUES Difficulty.easy = ⟨27, 32⟩ ∧
    DIFFICULTY_CLUES Difficulty.medium = ⟨25, 27⟩ ∧
    DIFFICULTY_CLUES Difficulty.hard = ⟨17, 19⟩ ∧
    ∀ d : Difficulty,
      d = Difficulty.easy ∨ d = Difficulty.medium ∨ d = Difficulty.hard := by
  refine ⟨rfl, rfl, rfl, ?_⟩
  intro d
  cases d
  · exact Or.inl rfl
  · exact Or.inr (Or.inl rfl)
  · exact Or.inr (Or.inr rfl)

/-- C10: `countSolutions` never returns more than 2: the search halts as
soon as the internal counter exceeds 1, so the result is always exactly
0, 1 or 2. -/
theorem C10_at_most_two (g : Grid) :
    countSolutions g ≤ 2 ∧
    (countSolutions g = 0 ∨ countSolutions g = 1 ∨ countSolutions g = 2) := by
  have := countSolutions_le_two g
  omega

end Sudoku
